import Mathlib

/-!
Verification development for the CS140 kernel primitives

Two parts of the kernel are embedded here:

* `GioSynch`: the reader/writer lock of `threads/gio_synch.c`
  (`rw_lock_init`, `r_lock_acquire`, `r_lock_release`, `w_lock_acquire`,
  `w_lock_release`);
* `Timer`: the tick counter with `timer_interrupt` and `timer_elapsed`, the
  sleep queue, its worker `background_processor`, `timer_sleep`,
  `real_time_sleep` and `real_time_delay` of `devices/timer.c`.

Every lock operation runs with interrupts disabled, hence atomically up to the
point where it calls `thread_block ()`.  A call is therefore embedded as a
function from the kernel state at its entry to the kernel state at its return,
at its suspension in `thread_block ()`, or at a failed `ASSERT`.
-/

namespace GioSynch

/-- A `struct thread *` that is not `NULL`. -/
abbrev Tid := Nat

/-- The `struct rw_lock`.  `w_holder` is `none` for `NULL`; `waiters` lists the
threads whose `elem` is linked into the list, front first.  The declaration of
`level` is in `gio_synch.h`; it is a counter of readers, taken here without an
upper bound. -/
structure rw_lock where
  w_holder : Option Tid
  level : Nat
  waiters : List Tid
deriving DecidableEq, Repr

/-- Where a thread stands with respect to the lock: `idle` when it is not
inside a suspended acquire, and `suspended write woken` when it sits in the
`thread_block ()` of the loop of `w_lock_acquire` (`write = true`) or of
`r_lock_acquire` (`write = false`); `woken` tells whether `thread_unblock` has
been called on it since, so that `thread_block ()` is about to return. -/
inductive Pc where
  | idle
  | suspended (write : Bool) (woken : Bool)
deriving DecidableEq, Repr

/-- The lock together with the part of the thread table the lock code touches:
the field `waits_write` of every `struct thread`, the position of every thread,
and the log of the calls of `thread_unblock`, oldest first. -/
structure Kernel where
  l : rw_lock
  waits_write : Tid → Bool
  pc : Tid → Pc
  unblocked : List Tid

/-- How a call ends: it returns, it suspends its caller in `thread_block ()`,
or an `ASSERT` fails and the kernel panics.  Each carries the state reached. -/
inductive Outcome where
  | returned (k : Kernel)
  | blocked (k : Kernel)
  | panic (k : Kernel)

/-- The state an outcome carries. -/
def Outcome.state : Outcome → Kernel
  | .returned k => k
  | .blocked k => k
  | .panic k => k

/-- Whether an `ASSERT` failed. -/
def Outcome.isPanic : Outcome → Bool
  | .panic _ => true
  | _ => false

/-- Whether the caller was suspended. -/
def Outcome.isBlocked : Outcome → Bool
  | .blocked _ => true
  | _ => false

/-- Whether the call returned to its caller. -/
def Outcome.isReturned : Outcome → Bool
  | .returned _ => true
  | _ => false

/-- The function `rw_lock_init`. -/
def rw_lock_init : rw_lock :=
  { w_holder := none, level := 0, waiters := [] }

/-- The kernel right after `rw_lock_init`: no thread is inside an acquire and
`thread_unblock` has not been called. -/
def Kernel.init : Kernel :=
  { l := rw_lock_init, waits_write := fun _ => false, pc := fun _ => Pc.idle, unblocked := [] }

/-- Modelled from the spec: `thread_block ()` of `threads/thread.c`, which is
not among the sources ("block(thread)" of the scheduler layer).  The caller
`cur` is suspended; `write` records in which acquire loop it stands. -/
def thread_block (k : Kernel) (cur : Tid) (write : Bool) : Kernel :=
  { k with pc := Function.update k.pc cur (Pc.suspended write false) }

/-- Modelled from the spec: `thread_unblock (t)` of `threads/thread.c`, which
is not among the sources ("unblock(thread)" of the scheduler layer).  The call
is logged and a thread that sits in `thread_block ()` is made ready to return
from it; the caller keeps running. -/
def thread_unblock (k : Kernel) (t : Tid) : Kernel :=
  { k with
    pc := Function.update k.pc t
      (match k.pc t with
       | Pc.suspended w _ => Pc.suspended w true
       | Pc.idle => Pc.idle)
    unblocked := k.unblocked ++ [t] }

/-- The loop `while (l->w_holder) { ... }` of `r_lock_acquire` from its test
on, followed by `l->level++`.  `is_first_iteration` is the local variable of
that name: `true` when the call enters the loop, `false` when `thread_block ()`
has returned. -/
def r_lock_acquire_loop (k : Kernel) (cur : Tid) (is_first_iteration : Bool) : Outcome :=
  if k.l.w_holder.isSome then
    if is_first_iteration then
      Outcome.blocked
        (thread_block { k with l := { k.l with waiters := k.l.waiters ++ [cur] } } cur false)
    else
      Outcome.panic k
  else
    Outcome.returned
      { k with
        l := { k.l with level := k.l.level + 1 }
        pc := Function.update k.pc cur Pc.idle }

/-- The function `r_lock_acquire`, called by `cur`, up to its return or its
suspension. -/
def r_lock_acquire (k : Kernel) (cur : Tid) : Outcome :=
  r_lock_acquire_loop { k with waits_write := Function.update k.waits_write cur false } cur true

/-- The function `r_lock_release`, called by `cur`. -/
def r_lock_release (k : Kernel) (_cur : Tid) : Outcome :=
  if k.l.level = 0 then
    Outcome.panic k
  else
    let k1 : Kernel := { k with l := { k.l with level := k.l.level - 1 } }
    if k1.l.level = 0 then
      match k1.l.waiters with
      | [] => Outcome.returned k1
      | t :: rest =>
        if k1.l.w_holder.isSome then
          Outcome.panic k1
        else
          let k2 : Kernel := { k1 with l := { k1.l with waiters := rest } }
          if k2.waits_write t then
            Outcome.returned (thread_unblock k2 t)
          else
            Outcome.panic k2
    else
      Outcome.returned k1

/-- The loop `while (l->w_holder || l->level) { ... }` of `w_lock_acquire`
from its test on, followed by `l->w_holder = thread_current ()`. -/
def w_lock_acquire_loop (k : Kernel) (cur : Tid) (is_first_iteration : Bool) : Outcome :=
  if k.l.w_holder.isSome || k.l.level != 0 then
    if is_first_iteration then
      Outcome.blocked
        (thread_block { k with l := { k.l with waiters := k.l.waiters ++ [cur] } } cur true)
    else
      Outcome.panic k
  else
    Outcome.returned
      { k with
        l := { k.l with w_holder := some cur }
        pc := Function.update k.pc cur Pc.idle }

/-- The function `w_lock_acquire`, called by `cur`, up to its return or its
suspension. -/
def w_lock_acquire (k : Kernel) (cur : Tid) : Outcome :=
  w_lock_acquire_loop { k with waits_write := Function.update k.waits_write cur true } cur true

/-- The loop `while (!list_empty (&l->waiters)) { ... }` of `w_lock_release`,
run on the list `ws` of waiters with the local variable `did_one`. -/
def w_lock_release_loop (k : Kernel) : List Tid → Bool → Kernel
  | [], _ => { k with l := { k.l with waiters := [] } }
  | t :: rest, did_one =>
    if k.waits_write t then
      if !did_one then
        thread_unblock { k with l := { k.l with waiters := rest } } t
      else
        { k with l := { k.l with waiters := t :: rest } }
    else
      w_lock_release_loop (thread_unblock { k with l := { k.l with waiters := rest } } t) rest true

/-- The function `w_lock_release`, called by `cur`. -/
def w_lock_release (k : Kernel) (cur : Tid) : Outcome :=
  if k.l.w_holder = some cur then
    let k1 : Kernel := { k with l := { k.l with w_holder := none } }
    Outcome.returned (w_lock_release_loop k1 k1.l.waiters false)
  else
    Outcome.panic k

/-- A thread whose `thread_block ()` returns: it goes on in the loop of the
acquire it was suspended in, with `is_first_iteration = false`. -/
def resume (k : Kernel) (cur : Tid) : Outcome :=
  match k.pc cur with
  | Pc.suspended true _ => w_lock_acquire_loop k cur false
  | Pc.suspended false _ => r_lock_acquire_loop k cur false
  | Pc.idle => Outcome.returned k

/-- What a thread may do next. -/
inductive Op where
  | r_acquire
  | r_release
  | w_acquire
  | w_release
  | resume
deriving DecidableEq, Repr

/-- A scheduling event: thread `t` runs `op`. -/
structure Event where
  t : Tid
  op : Op
deriving DecidableEq, Repr

/-- A thread can call a lock operation when it is not suspended, and its
`thread_block ()` can return once `thread_unblock` has been called on it. -/
def enabled (k : Kernel) (e : Event) : Bool :=
  match e.op, k.pc e.t with
  | Op.resume, Pc.suspended _ true => true
  | Op.resume, _ => false
  | _, Pc.idle => true
  | _, _ => false

/-- One event of the kernel. -/
def step (k : Kernel) (e : Event) : Outcome :=
  match e.op with
  | Op.r_acquire => r_lock_acquire k e.t
  | Op.r_release => r_lock_release k e.t
  | Op.w_acquire => w_lock_acquire k e.t
  | Op.w_release => w_lock_release k e.t
  | Op.resume => resume k e.t

/-- Runs a schedule after the outcome `o` of the event before it: `none` when
the schedule asks for an event that is not enabled, otherwise the outcome of
its last event, or of the first event at which an `ASSERT` fails. -/
def runFrom (o : Outcome) : List Event → Option Outcome
  | [] => some o
  | e :: es =>
    match o with
    | Outcome.panic k => some (Outcome.panic k)
    | Outcome.returned k => if enabled k e then runFrom (step k e) es else none
    | Outcome.blocked k => if enabled k e then runFrom (step k e) es else none

/-- Runs a schedule from the state `k`. -/
def run (k : Kernel) (es : List Event) : Option Outcome :=
  runFrom (Outcome.returned k) es

/-- The state a schedule ends in, when it can be run. -/
def runState (k : Kernel) (es : List Event) : Option Kernel :=
  (run k es).map Outcome.state

/-- The states reachable from `rw_lock_init`: every enabled event that does not
panic leads to a reachable state. -/
inductive Reachable : Kernel → Prop where
  | init : Reachable Kernel.init
  | step (k : Kernel) (e : Event) :
      Reachable k → enabled k e = true → (step k e).isPanic = false →
      Reachable (step k e).state

/-- Mutual exclusion of the two kinds of holders. -/
def Excl (l : rw_lock) : Prop :=
  (l.w_holder ≠ none → l.level = 0) ∧ (0 < l.level → l.w_holder = none)

/-- The schedule of the writer-preference scenario up to the arrival of the
second reader: `R1 = 1` acquires for reading, `W1 = 2` asks for writing. -/
def sched_pref : List Event :=
  [⟨1, Op.r_acquire⟩, ⟨2, Op.w_acquire⟩]

/-- The kernel after `sched_pref`. -/
def k_pref : Kernel :=
  (step (step Kernel.init ⟨1, Op.r_acquire⟩).state ⟨2, Op.w_acquire⟩).state

/-- Thread `0` holds the lock for writing and `R1 = 1`, `R2 = 2`, `W1 = 3`,
`R3 = 4` have queued behind it in this order. -/
def sched_batch : List Event :=
  [⟨0, Op.w_acquire⟩, ⟨1, Op.r_acquire⟩, ⟨2, Op.r_acquire⟩, ⟨3, Op.w_acquire⟩,
   ⟨4, Op.r_acquire⟩]

/-- The kernel after `sched_batch`. -/
def k_batch : Kernel :=
  (step (step (step (step (step Kernel.init ⟨0, Op.w_acquire⟩).state ⟨1, Op.r_acquire⟩).state
    ⟨2, Op.r_acquire⟩).state ⟨3, Op.w_acquire⟩).state ⟨4, Op.r_acquire⟩).state

/-- The kernel after thread `0` has acquired the lock for writing. -/
def k_held : Kernel :=
  (step Kernel.init ⟨0, Op.w_acquire⟩).state

/-- Thread `0` writes while `2` (writer) and `3` (reader) queue; `0` releases,
which wakes `2` only, and before `2` runs thread `0` takes and drops the lock
for reading. -/
def sched_reader_front : List Event :=
  [⟨0, Op.w_acquire⟩, ⟨2, Op.w_acquire⟩, ⟨3, Op.r_acquire⟩, ⟨0, Op.w_release⟩,
   ⟨0, Op.r_acquire⟩, ⟨0, Op.r_release⟩]

/-- Thread `0` writes while reader `1` queues; `0` releases, which wakes `1`,
and takes the lock for writing again before `1` runs; then `1` runs. -/
def sched_barge_reader : List Event :=
  [⟨0, Op.w_acquire⟩, ⟨1, Op.r_acquire⟩, ⟨0, Op.w_release⟩, ⟨0, Op.w_acquire⟩,
   ⟨1, Op.resume⟩]

/-- Thread `0` writes while writer `1` queues; `0` releases, which wakes `1`,
and takes the lock for reading before `1` runs; then `1` runs. -/
def sched_barge_writer : List Event :=
  [⟨0, Op.w_acquire⟩, ⟨1, Op.w_acquire⟩, ⟨0, Op.w_release⟩, ⟨0, Op.r_acquire⟩,
   ⟨1, Op.resume⟩]

/-- The schedule in which each thread of `ts` in turn calls `r_lock_acquire`. -/
def readers (ts : List Tid) : List Event :=
  ts.map (fun t => ⟨t, Op.r_acquire⟩)

end GioSynch

namespace Timer

/-- A `struct thread *` that is not `NULL`. -/
abbrev Tid := Nat

/-- The constant `SLEEPING_THREAD_MAGIC`. -/
def SLEEPING_THREAD_MAGIC : Int := 132432325

/-- The `struct sleeping_thread`, without its list link. -/
structure sleeping_thread where
  thread : Tid
  wake_up_time : Int
  MAGIC : Int
deriving DecidableEq, Repr

/-- The function `init_sleeping_thread`. -/
def init_sleeping_thread (wake_up_time : Int) (thread : Tid) : sleeping_thread :=
  { thread := thread, wake_up_time := wake_up_time, MAGIC := SLEEPING_THREAD_MAGIC }

/-- The value an `int64_t` holds after an arithmetic result `x`: two's
complement wrap-around into `[-2^63, 2^63)`. -/
def wrap64 (x : Int) : Int :=
  (x + 2 ^ 63) % 2 ^ 64 - 2 ^ 63

/-- Whether `x` is the value of some `int64_t`. -/
def InInt64 (x : Int) : Prop :=
  -(2 ^ 63) ≤ x ∧ x < 2 ^ 63

instance (x : Int) : Decidable (InInt64 x) := by
  unfold InInt64; exact inferInstance

/-- The result of `enum intr_level intr_get_level ()`. -/
inductive intr_level where
  | INTR_OFF
  | INTR_ON
deriving DecidableEq, Repr

/-- The function `sleeping_thread_less_func`; `none` when one of its two
`ASSERT`s fails. -/
def sleeping_thread_less_func (a b : sleeping_thread) : Option Bool :=
  if a.MAGIC = SLEEPING_THREAD_MAGIC then
    if b.MAGIC = SLEEPING_THREAD_MAGIC then
      some (decide (a.wake_up_time < b.wake_up_time))
    else none
  else none

/-- Modelled from the spec: `list_insert_ordered` of `lib/kernel/list.c`, which
is not among the sources.  It scans the list from the front and links `elem`
in before the first element `e` with `less (elem, e)`, at the back when there
is none ("linear insertion scan comparing `wake_at`").  `none` when `less`
fails an `ASSERT`. -/
def list_insert_ordered {α : Type} (elem : α) (less : α → α → Option Bool) :
    List α → Option (List α)
  | [] => some [elem]
  | e :: rest =>
    match less elem e with
    | none => none
    | some true => some (elem :: e :: rest)
    | some false =>
      match list_insert_ordered elem less rest with
      | none => none
      | some rest1 => some (e :: rest1)

/-- The function `timer_sleep (ticks)` called by `cur` at interrupt level
`level` when `timer_ticks ()` returns `start`, up to the `sema_up` after the
insertion; the caller then blocks.  The result is the new
`sleeping_threads_list`, or `none` when an `ASSERT` fails. -/
def timer_sleep (level : intr_level) (start : Int) (cur : Tid) (ticks : Int)
    (sleeping_threads_list : List sleeping_thread) : Option (List sleeping_thread) :=
  if level = intr_level.INTR_ON then
    let my_thread := init_sleeping_thread (wrap64 (start + ticks)) cur
    list_insert_ordered my_thread sleeping_thread_less_func sleeping_threads_list
  else
    none

/-- One call of `timer_sleep`: who calls, what `timer_ticks ()` returns to it
and the argument. -/
structure SleepCall where
  thread : Tid
  start : Int
  ticks : Int
deriving DecidableEq, Repr

/-- The entry that the call builds on its stack. -/
def SleepCall.entry (c : SleepCall) : sleeping_thread :=
  init_sleeping_thread (wrap64 (c.start + c.ticks)) c.thread

/-- A sequence of calls of `timer_sleep`, made with interrupts on, one after
the other on the list `q`. -/
def sleep_all : List SleepCall → List sleeping_thread → Option (List sleeping_thread)
  | [], q => some q
  | c :: cs, q =>
    match timer_sleep intr_level.INTR_ON c.start c.thread c.ticks q with
    | none => none
    | some q1 => sleep_all cs q1

/-- What one pass of the inner loop of `background_processor` leaves: the calls
of `thread_unblock` in order, each entry with the value of `ticks` that the test
before it read; the list; and whether the `ASSERT` on `MAGIC` failed. -/
structure Pass where
  unblocked : List (sleeping_thread × Int)
  queue : List sleeping_thread
  panicked : Bool
deriving DecidableEq, Repr

/-- The inner `while (1)` of `background_processor` on the list `q`, with no
other thread touching the list meanwhile.  `ticks j` is the value of the global
`ticks` read by the test of the iteration number `j`; `i` numbers the
iteration about to run. -/
def drain (ticks : Nat → Int) : Nat → List sleeping_thread → Pass
  | _, [] => { unblocked := [], queue := [], panicked := false }
  | i, e :: rest =>
    if e.MAGIC = SLEEPING_THREAD_MAGIC then
      if e.wake_up_time ≤ ticks i then
        let p := drain ticks (i + 1) rest
        { p with unblocked := (e, ticks i) :: p.unblocked }
      else
        { unblocked := [], queue := e :: rest, panicked := false }
    else
      { unblocked := [], queue := rest, panicked := true }

/-- The order of the sleep queue: `a` is due no later than `b`. -/
def wakeLE (a b : sleeping_thread) : Bool :=
  decide (a.wake_up_time ≤ b.wake_up_time)

/-- Whether the entry is due at the tick `now`. -/
def due (now : Int) (e : sleeping_thread) : Bool :=
  decide (e.wake_up_time ≤ now)

/-- Whether the entry wakes at `w`. -/
def wakesAt (w : Int) (e : sleeping_thread) : Bool :=
  decide (e.wake_up_time = w)

/-- The calls `timer_sleep (5)`, `(2)`, `(8)`, `(2)` by the threads `1` to `4`
at tick `0`. -/
def calls_5_2_8_2 : List SleepCall :=
  [⟨1, 0, 5⟩, ⟨2, 0, 2⟩, ⟨3, 0, 8⟩, ⟨4, 0, 2⟩]

/-- The queue that `calls_5_2_8_2` builds. -/
def queue_2_2_5_8 : List sleeping_thread :=
  [⟨2, 2, SLEEPING_THREAD_MAGIC⟩, ⟨4, 2, SLEEPING_THREAD_MAGIC⟩,
   ⟨1, 5, SLEEPING_THREAD_MAGIC⟩, ⟨3, 8, SLEEPING_THREAD_MAGIC⟩]

/-- The queue `queue_2_2_5_8` after thread `9` has called `timer_sleep (7)` at
tick `1`. -/
def queue_2_2_5_8_8 : List sleeping_thread :=
  [⟨2, 2, SLEEPING_THREAD_MAGIC⟩, ⟨4, 2, SLEEPING_THREAD_MAGIC⟩,
   ⟨1, 5, SLEEPING_THREAD_MAGIC⟩, ⟨3, 8, SLEEPING_THREAD_MAGIC⟩,
   ⟨9, 8, SLEEPING_THREAD_MAGIC⟩]

/-- C division of `int64_t` values: the quotient is truncated toward zero. -/
def div64 (a b : Int) : Int :=
  wrap64 (Int.tdiv a b)

/-- What `real_time_sleep` goes on to call. -/
inductive Callee where
  | timer_sleep (ticks : Int)
  | real_time_delay (num : Int) (denom : Int)
deriving DecidableEq, Repr

/-- The function `real_time_sleep (num, denom)` for the kernel's `TIMER_FREQ`
(a constant of `timer.h`), at interrupt level `level`: the call it ends in, or
`none` when its `ASSERT` fails. -/
def real_time_sleep (TIMER_FREQ : Int) (level : intr_level) (num denom : Int) : Option Callee :=
  let ticks := div64 (wrap64 (num * TIMER_FREQ)) denom
  if level = intr_level.INTR_ON then
    if ticks > 0 then
      some (Callee.timer_sleep ticks)
    else
      some (Callee.real_time_delay num denom)
  else
    none

/-- The function `timer_msleep`. -/
def timer_msleep (TIMER_FREQ : Int) (level : intr_level) (ms : Int) : Option Callee :=
  real_time_sleep TIMER_FREQ level ms 1000

/-- The function `timer_usleep`. -/
def timer_usleep (TIMER_FREQ : Int) (level : intr_level) (us : Int) : Option Callee :=
  real_time_sleep TIMER_FREQ level us (1000 * 1000)

/-- The function `timer_nsleep`. -/
def timer_nsleep (TIMER_FREQ : Int) (level : intr_level) (ns : Int) : Option Callee :=
  real_time_sleep TIMER_FREQ level ns (1000 * 1000 * 1000)

end Timer

namespace GioSynch

/-- The kernel after `sched_batch` and the release by the writer `0`: the
readers `1` and `2` are woken and have not run yet, `3` and `4` wait. -/
def k_woken : Kernel :=
  (step k_batch ⟨0, Op.w_release⟩).state

/-- The kernel in which the writer `1`, queued behind the writer `0`, has been
woken by the release of `0` and has not run yet. -/
def k_writer_woken : Kernel :=
  (step (step k_held ⟨1, Op.w_acquire⟩).state ⟨0, Op.w_release⟩).state

end GioSynch

namespace GioSynch

/-- What `thread_unblock` makes of the position of a thread. -/
def Pc.wake : Pc → Pc
  | Pc.suspended w _ => Pc.suspended w true
  | Pc.idle => Pc.idle

/-- The waiters are distinct threads, each one sitting in the `thread_block ()`
of the acquire that its `waits_write` names and not woken since. -/
def WaitersBlocked (k : Kernel) : Prop :=
  k.l.waiters.Nodup ∧ ∀ t ∈ k.l.waiters, k.pc t = Pc.suspended (k.waits_write t) false

/-- No waiter is stranded: when somebody waits, the lock is held or a woken
thread has yet to run. -/
def NoStranded (k : Kernel) : Prop :=
  k.l.waiters ≠ [] →
    k.l.w_holder ≠ none ∨ 0 < k.l.level ∨ ∃ t w, k.pc t = Pc.suspended w true

end GioSynch

namespace GioSynch

/-- The kernel in which thread `0` holds the lock for writing and the writers
`W1 = 1` and `W2 = 2` wait in this order. -/
def k_two_writers : Kernel :=
  (step (step k_held ⟨1, Op.w_acquire⟩).state ⟨2, Op.w_acquire⟩).state

/-- From `k_two_writers`: `0` releases, `1` runs and releases in turn. -/
def sched_handover : List Event :=
  [⟨0, Op.w_release⟩, ⟨1, Op.resume⟩, ⟨1, Op.w_release⟩]

end GioSynch

namespace Timer

/-- The globals of `timer.c` that the sleep/wake code shares: the tick counter
`ticks` and `sleeping_threads_list`. -/
structure TimerState where
  ticks : Int
  sleeping_threads_list : List sleeping_thread
deriving DecidableEq, Repr

/-- The function `timer_ticks`: the value of `ticks`, read with interrupts
off. -/
def timer_ticks (s : TimerState) : Int :=
  s.ticks

/-- The function `timer_elapsed (then)`, with `thn` for its argument. -/
def timer_elapsed (s : TimerState) (thn : Int) : Int :=
  wrap64 (timer_ticks s - thn)

/-- The constant `SLEEP_APPROXIMATION`. -/
def SLEEP_APPROXIMATION : Int := -1

/-- The function `timer_interrupt`: the new globals, and whether it calls
`try_thread_unblock (background_thread)`.  The `&` of the two's complement
values is `Int.land`; `thread_tick ()` touches none of these globals. -/
def timer_interrupt (s : TimerState) : TimerState × Bool :=
  let s1 : TimerState := { s with ticks := wrap64 (s.ticks + 1) }
  (s1, decide (Int.land s1.ticks SLEEP_APPROXIMATION ≠ 0))

/-- The function `busy_wait (loops)`: the number of times round its loop
`while (loops-- > 0)`. -/
def busy_wait (loops : Int) : Nat :=
  loops.toNat

/-- The function `real_time_delay (num, denom)` for the kernel's `TIMER_FREQ`
and the calibrated `loops_per_tick` (an `unsigned`, converted to `int64_t` for
the product): the globals it leaves and the argument it passes to `busy_wait`,
or `none` when its `ASSERT` fails. -/
def real_time_delay (TIMER_FREQ : Int) (loops_per_tick : Nat) (s : TimerState)
    (num denom : Int) : Option (TimerState × Int) :=
  if Int.tmod denom 1000 = 0 then
    some (s, div64 (wrap64 (div64 (wrap64 ((loops_per_tick : Int) * num)) 1000 * TIMER_FREQ))
      (Int.tdiv denom 1000))
  else
    none

/-- The function `timer_mdelay`. -/
def timer_mdelay (TIMER_FREQ : Int) (loops_per_tick : Nat) (s : TimerState) (ms : Int) :
    Option (TimerState × Int) :=
  real_time_delay TIMER_FREQ loops_per_tick s ms 1000

/-- The function `timer_udelay`. -/
def timer_udelay (TIMER_FREQ : Int) (loops_per_tick : Nat) (s : TimerState) (us : Int) :
    Option (TimerState × Int) :=
  real_time_delay TIMER_FREQ loops_per_tick s us (1000 * 1000)

/-- The function `timer_ndelay`. -/
def timer_ndelay (TIMER_FREQ : Int) (loops_per_tick : Nat) (s : TimerState) (ns : Int) :
    Option (TimerState × Int) :=
  real_time_delay TIMER_FREQ loops_per_tick s ns (1000 * 1000 * 1000)

/-- The code of `timer.c` that runs on the globals: the interrupt handler, a
call of `timer_sleep` (with interrupts on) up to its `thread_block ()`, one
pass of the inner loop of the worker, and a call of `real_time_delay`. -/
inductive TimerOp where
  | interrupt
  | sleep (cur : Tid) (ticks : Int)
  | pass
  | delay (num : Int) (denom : Int)
deriving DecidableEq, Repr

/-- The globals after one operation; an operation that fails an `ASSERT`
leaves them as they are. -/
def TimerOp.apply (TIMER_FREQ : Int) (loops_per_tick : Nat) (s : TimerState) :
    TimerOp → TimerState
  | TimerOp.interrupt => (timer_interrupt s).1
  | TimerOp.sleep cur n =>
    match timer_sleep intr_level.INTR_ON (timer_ticks s) cur n s.sleeping_threads_list with
    | some q => { s with sleeping_threads_list := q }
    | none => s
  | TimerOp.pass =>
    { s with sleeping_threads_list := (drain (fun _ => s.ticks) 0 s.sleeping_threads_list).queue }
  | TimerOp.delay num denom =>
    match real_time_delay TIMER_FREQ loops_per_tick s num denom with
    | some r => r.1
    | none => s

/-- The globals after a sequence of operations. -/
def applyAll (TIMER_FREQ : Int) (loops_per_tick : Nat) :
    TimerState → List TimerOp → TimerState
  | s, [] => s
  | s, op :: ops =>
    applyAll TIMER_FREQ loops_per_tick (TimerOp.apply TIMER_FREQ loops_per_tick s op) ops

/-- One iteration of the inner loop of `background_processor` on the list `q`
(lines 64 to 83), in which the calls `arrivals` of `timer_sleep` run after the
`sema_up` that follows `list_pop_front` and before the worker goes on to
`thread_unblock` or to the `sema_down` of its `list_push_front`, that is while
the worker holds the popped entry and the semaphore is free.  On an empty list
nothing is popped and the loop is left at once. -/
def drain_iteration (ticks : Int) (arrivals : List SleepCall) : List sleeping_thread → Pass
  | [] => { unblocked := [], queue := [], panicked := false }
  | e :: rest =>
    match sleep_all arrivals rest with
    | none => { unblocked := [], queue := rest, panicked := true }
    | some rest1 =>
      if e.MAGIC = SLEEPING_THREAD_MAGIC then
        if e.wake_up_time ≤ ticks then
          { unblocked := [(e, ticks)], queue := rest1, panicked := false }
        else
          { unblocked := [], queue := e :: rest1, panicked := false }
      else
        { unblocked := [], queue := rest1, panicked := true }

/-- The queue that holds the one entry of thread `1`, due at tick `100`. -/
def queue_100 : List sleeping_thread :=
  [⟨1, 100, SLEEPING_THREAD_MAGIC⟩]

/-- The queue after the push-back that follows the arrival of thread `2`, due
at tick `20`. -/
def queue_100_20 : List sleeping_thread :=
  [⟨1, 100, SLEEPING_THREAD_MAGIC⟩, ⟨2, 20, SLEEPING_THREAD_MAGIC⟩]

end Timer

namespace GioSynch

/-! ## The reader/writer lock -/

@[simp] theorem thread_unblock_l (k : Kernel) (t : Tid) : (thread_unblock k t).l = k.l := rfl

@[simp] theorem thread_block_l (k : Kernel) (t : Tid) (w : Bool) :
    (thread_block k t w).l = k.l := rfl

@[simp] theorem thread_unblock_waits_write (k : Kernel) (t : Tid) :
    (thread_unblock k t).waits_write = k.waits_write := rfl

@[simp] theorem thread_unblock_unblocked (k : Kernel) (t : Tid) :
    (thread_unblock k t).unblocked = k.unblocked ++ [t] := rfl

/-- The wake-up loop of `w_lock_release` touches neither `w_holder` nor
`level`. -/
theorem w_lock_release_loop_holder (ws : List Tid) :
    ∀ (k : Kernel) (d : Bool),
      (w_lock_release_loop k ws d).l.w_holder = k.l.w_holder ∧
      (w_lock_release_loop k ws d).l.level = k.l.level := by
  induction ws with
  | nil => intro k d; simp [w_lock_release_loop]
  | cons t rest ih =>
    intro k d
    unfold w_lock_release_loop
    split
    · split <;> simp
    · have h := ih (thread_unblock { k with l := { k.l with waiters := rest } } t) true
      simpa using h

/-- The wake-up loop of `w_lock_release` leaves every `waits_write` as it is. -/
theorem w_lock_release_loop_waits_write (ws : List Tid) :
    ∀ (k : Kernel) (d : Bool), (w_lock_release_loop k ws d).waits_write = k.waits_write := by
  induction ws with
  | nil => intro k d; simp [w_lock_release_loop]
  | cons t rest ih =>
    intro k d
    unfold w_lock_release_loop
    split
    · split <;> simp
    · have h := ih (thread_unblock { k with l := { k.l with waiters := rest } } t) true
      simpa using h

/-- Once a reader has been woken (`did_one`), the loop wakes the readers at the
front of the list and stops at the first writer, which stays queued. -/
theorem w_lock_release_loop_did_one (ws : List Tid) :
    ∀ (k : Kernel),
      (w_lock_release_loop k ws true).unblocked =
          k.unblocked ++ ws.takeWhile (fun t => !k.waits_write t) ∧
      (w_lock_release_loop k ws true).l.waiters =
          ws.dropWhile (fun t => !k.waits_write t) := by
  induction ws with
  | nil => intro k; simp [w_lock_release_loop]
  | cons t rest ih =>
    intro k
    unfold w_lock_release_loop
    by_cases hw : k.waits_write t = true
    · simp [hw]
    · have h := ih (thread_unblock { k with l := { k.l with waiters := rest } } t)
      simp only [Bool.not_eq_true] at hw
      simp [hw] at h ⊢
      exact h

/-- Every event keeps the two kinds of holders apart, whatever its outcome. -/
theorem excl_step (k : Kernel) (e : Event) (h : Excl k.l) : Excl (step k e).state.l := by
  obtain ⟨h1, h2⟩ := h
  obtain ⟨t, op⟩ := e
  cases op
  · simp only [step, r_lock_acquire, r_lock_acquire_loop]
    split
    · split
      · exact ⟨h1, h2⟩
      · exact ⟨h1, h2⟩
    · rename_i hw
      simp at hw
      simp [Outcome.state, Excl, hw]
  · simp only [step, r_lock_release]
    split
    · exact ⟨h1, h2⟩
    · rename_i hl
      have hw : k.l.w_holder = none := h2 (Nat.pos_of_ne_zero hl)
      split
      · split <;> (try split) <;> (try split) <;> simp_all [Outcome.state, Excl]
      · simp_all [Outcome.state, Excl]
  · simp only [step, w_lock_acquire, w_lock_acquire_loop]
    split
    · split
      · exact ⟨h1, h2⟩
      · exact ⟨h1, h2⟩
    · rename_i hw
      simp at hw
      simp [Outcome.state, Excl, hw]
  · simp only [step, w_lock_release]
    split
    · have h := w_lock_release_loop_holder k.l.waiters
        { k with l := { k.l with w_holder := none } } false
      simp only [Outcome.state, Excl, h.1, h.2]
      simp
    · exact ⟨h1, h2⟩
  · simp only [step, resume]
    split
    · simp only [w_lock_acquire_loop]
      split
      · split <;> exact ⟨h1, h2⟩
      · rename_i hw
        simp at hw
        simp [Outcome.state, Excl, hw]
    · simp only [r_lock_acquire_loop]
      split
      · split <;> exact ⟨h1, h2⟩
      · rename_i hw
        simp at hw
        simp [Outcome.state, Excl, hw]
    · exact ⟨h1, h2⟩

/-- Reachable states keep the two kinds of holders apart. -/
theorem excl_of_reachable (k : Kernel) (h : Reachable k) : Excl k.l := by
  induction h with
  | init => simp [Excl, Kernel.init, rw_lock_init]
  | step k e _ _ _ ih => exact excl_step k e ih

/-- C1 (mutual exclusion).  In every state reachable from `rw_lock_init` by
acquires, releases and resumptions of woken threads, a write holder implies
`level = 0` and `level > 0` implies that there is no write holder; the same is
true of the state that any further event leaves, a failed `ASSERT` included. -/
theorem rw_lock_mutual_exclusion (k : Kernel) (h : Reachable k) :
    ((k.l.w_holder ≠ none → k.l.level = 0) ∧ (0 < k.l.level → k.l.w_holder = none)) ∧
    ∀ e : Event,
      ((step k e).state.l.w_holder ≠ none → (step k e).state.l.level = 0) ∧
      (0 < (step k e).state.l.level → (step k e).state.l.w_holder = none) :=
  ⟨excl_of_reachable k h, fun e => excl_step k e (excl_of_reachable k h)⟩

/-- C1 at the state in which thread `0` holds the lock for writing. -/
theorem rw_lock_mutual_exclusion_witness :
    Reachable k_held ∧ k_held.l.w_holder = some 0 ∧
    (((k_held.l.w_holder ≠ none → k_held.l.level = 0) ∧
      (0 < k_held.l.level → k_held.l.w_holder = none)) ∧
     ∀ e : Event,
      ((step k_held e).state.l.w_holder ≠ none → (step k_held e).state.l.level = 0) ∧
      (0 < (step k_held e).state.l.level → (step k_held e).state.l.w_holder = none)) :=
  ⟨Reachable.step Kernel.init ⟨0, Op.w_acquire⟩ Reachable.init rfl rfl, rfl,
   rw_lock_mutual_exclusion k_held
     (Reachable.step Kernel.init ⟨0, Op.w_acquire⟩ Reachable.init rfl rfl)⟩

/-- C2, as stated, fails.  After `R1 = 1` has acquired for reading and
`W1 = 2` has queued for writing, no writer holds the lock, the write-waiter `2`
is queued and a reader holds; `r_lock_acquire` by `R2 = 3` nevertheless returns
with `level = 2` and does not queue `3`.  When `R1` then releases, nobody is
woken. -/
theorem writer_preference_counterexample :
    runState Kernel.init sched_pref = some k_pref ∧
    k_pref.l = ⟨none, 1, [2]⟩ ∧ k_pref.waits_write 2 = true ∧
    (r_lock_acquire k_pref 3).isBlocked = false ∧
    (r_lock_acquire k_pref 3).isReturned = true ∧
    (r_lock_acquire k_pref 3).state.l = ⟨none, 2, [2]⟩ ∧
    (runState Kernel.init (sched_pref ++ [⟨3, Op.r_acquire⟩, ⟨1, Op.r_release⟩])).map
      (fun k => (k.l, k.unblocked)) = some (⟨none, 1, [2]⟩, []) := by
  refine ⟨rfl, ?_, ?_, ?_, ?_, ?_, ?_⟩ <;> decide

/-- C2, amended.  `r_lock_acquire` suspends its caller exactly when a writer
holds the lock, and then appends it to the back of `waiters` as a read-waiter;
it returns exactly when `w_holder` is `NULL`, queued write-waiters or not.  In
the scenario, `R2 = 3` is admitted beside `R1 = 1`, the release by `R1` wakes
nobody, and `W1 = 2` is woken by the release of the last reader `R2`. -/
theorem r_lock_acquire_blocks_iff_writer_holds (k : Kernel) (cur : Tid) :
    ((r_lock_acquire k cur).isBlocked = true ↔ k.l.w_holder ≠ none) ∧
    ((r_lock_acquire k cur).isReturned = true ↔ k.l.w_holder = none) ∧
    (r_lock_acquire k cur).isPanic = false ∧
    (k.l.w_holder ≠ none →
      (r_lock_acquire k cur).state.l = { k.l with waiters := k.l.waiters ++ [cur] } ∧
      (r_lock_acquire k cur).state.waits_write cur = false ∧
      (r_lock_acquire k cur).state.pc cur = Pc.suspended false false) ∧
    (run Kernel.init (sched_pref ++ [⟨3, Op.r_acquire⟩])).map Outcome.isReturned = some true ∧
    (runState Kernel.init (sched_pref ++ [⟨3, Op.r_acquire⟩, ⟨1, Op.r_release⟩])).map
      (fun k => (k.l, k.unblocked)) = some (⟨none, 1, [2]⟩, []) ∧
    (runState Kernel.init
      (sched_pref ++ [⟨3, Op.r_acquire⟩, ⟨1, Op.r_release⟩, ⟨3, Op.r_release⟩])).map
      (fun k => (k.l, k.unblocked)) = some (⟨none, 0, []⟩, [2]) := by
  refine ⟨?_, ?_, ?_, ?_, by decide, by decide, by decide⟩
  · cases hw : k.l.w_holder <;>
      simp [r_lock_acquire, r_lock_acquire_loop, hw, Outcome.isBlocked]
  · cases hw : k.l.w_holder <;>
      simp [r_lock_acquire, r_lock_acquire_loop, hw, Outcome.isReturned]
  · cases hw : k.l.w_holder <;>
      simp [r_lock_acquire, r_lock_acquire_loop, hw, Outcome.isPanic]
  · intro h
    cases hw : k.l.w_holder with
    | none => exact absurd hw h
    | some w =>
      simp [r_lock_acquire, r_lock_acquire_loop, hw, Outcome.state, thread_block]

/-- C2 amended, at the state in which thread `0` holds the lock for writing:
the reader `5` is queued. -/
theorem r_lock_acquire_blocks_iff_writer_holds_witness :
    k_held.l.w_holder ≠ none ∧ (r_lock_acquire k_held 5).isBlocked = true ∧
    (r_lock_acquire k_held 5).state.l = ⟨some 0, 0, [5]⟩ :=
  ⟨by decide,
   (r_lock_acquire_blocks_iff_writer_holds k_held 5).1.2 (by decide),
   ((r_lock_acquire_blocks_iff_writer_holds k_held 5).2.2.2.1 (by decide)).1⟩

end GioSynch

namespace GioSynch

/-- C3 (write-release batch wake).  When the write holder calls
`w_lock_release`, the call returns with `w_holder = NULL` and `level` and every
`waits_write` unchanged; (i) on an empty queue nobody is unblocked; (ii) when
the front waiter wants to write, `thread_unblock` is called on it alone and
`waiters` becomes the tail; (iii) when the front waiter wants to read,
`thread_unblock` is called, in queue order, on the longest prefix of
read-waiters and `waiters` becomes the rest of the queue. -/
theorem w_lock_release_batch_wake (k : Kernel) (cur : Tid) (h : k.l.w_holder = some cur) :
    (w_lock_release k cur).isReturned = true ∧
    (w_lock_release k cur).state.l.w_holder = none ∧
    (w_lock_release k cur).state.l.level = k.l.level ∧
    (w_lock_release k cur).state.waits_write = k.waits_write ∧
    (k.l.waiters = [] →
      (w_lock_release k cur).state.unblocked = k.unblocked ∧
      (w_lock_release k cur).state.l.waiters = []) ∧
    (∀ t rest, k.l.waiters = t :: rest → k.waits_write t = true →
      (w_lock_release k cur).state.unblocked = k.unblocked ++ [t] ∧
      (w_lock_release k cur).state.l.waiters = rest) ∧
    (∀ t rest, k.l.waiters = t :: rest → k.waits_write t = false →
      (w_lock_release k cur).state.unblocked =
        k.unblocked ++ k.l.waiters.takeWhile (fun t => !k.waits_write t) ∧
      (w_lock_release k cur).state.l.waiters =
        k.l.waiters.dropWhile (fun t => !k.waits_write t)) := by
  have hh := w_lock_release_loop_holder k.l.waiters
    { k with l := { k.l with w_holder := none } } false
  have hww := w_lock_release_loop_waits_write k.l.waiters
    { k with l := { k.l with w_holder := none } } false
  simp only [w_lock_release, h, if_true, Outcome.isReturned, Outcome.state]
  refine ⟨trivial, hh.1, hh.2, hww, ?_, ?_, ?_⟩
  · intro he
    simp [he, w_lock_release_loop]
  · intro t rest he ht
    simp [he, w_lock_release_loop, ht]
  · intro t rest he ht
    have hd := w_lock_release_loop_did_one rest
      (thread_unblock
        { k with l := { w_holder := none, level := k.l.level, waiters := rest } } t)
    simp only [thread_unblock_waits_write, thread_unblock_unblocked] at hd
    simp [he, w_lock_release_loop, ht, hd.1, hd.2]

/-- C3 at the queue `[R1, R2, W1, R3] = [1, 2, 3, 4]` behind the writer `0`:
the release wakes `1` and `2` and leaves `[3, 4]`. -/
theorem w_lock_release_batch_wake_witness :
    runState Kernel.init sched_batch = some k_batch ∧
    k_batch.l = ⟨some 0, 0, [1, 2, 3, 4]⟩ ∧
    (w_lock_release k_batch 0).state.unblocked = [1, 2] ∧
    (w_lock_release k_batch 0).state.l = ⟨none, 0, [3, 4]⟩ := by
  have h := w_lock_release_batch_wake k_batch 0 (by decide)
  obtain ⟨_, h2, h3, _, _, _, h7⟩ := h
  have h8 := h7 1 [2, 3, 4] (by decide) (by decide)
  refine ⟨rfl, by decide, ?_, ?_⟩
  · rw [h8.1]; decide
  · have e : ∀ l : rw_lock, l.w_holder = none → l.level = 0 → l.waiters = [3, 4] →
        l = ⟨none, 0, [3, 4]⟩ := by
      intro l a b c; cases l; simp_all
    exact e _ h2 (by rw [h3]; decide) (by rw [h8.2]; decide)

/-- C4 fails on `sched_reader_front`.  The schedule runs up to its last event
with `level = 1`, no write holder and the read-waiter `3` alone in `waiters`;
the `r_lock_release` that follows brings `level` to `0`, pops `3` and fails
`ASSERT (t->waits_write)`. -/
theorem r_lock_release_front_reader_panics :
    (runState Kernel.init (sched_reader_front.take 5)).map
      (fun k => (k.l, k.waits_write 3, k.unblocked)) = some (⟨none, 1, [3]⟩, false, [2]) ∧
    (run Kernel.init (sched_reader_front.take 5)).map Outcome.isReturned = some true ∧
    (run Kernel.init sched_reader_front).map Outcome.isPanic = some true ∧
    (runState Kernel.init sched_reader_front).map (fun k => (k.l, k.unblocked)) =
      some (⟨none, 0, []⟩, [2]) := by
  refine ⟨?_, ?_, ?_, ?_⟩ <;> decide

/-- C5 fails on `sched_barge_reader` and on `sched_barge_writer`.  In the first
the read-waiter `1`, woken by `w_lock_release`, resumes while thread `0` holds
the lock for writing again; in the second the write-waiter `1` resumes while
`level = 1`.  Both resumptions fail `ASSERT (is_first_iteration)`. -/
theorem woken_waiter_resumption_panics :
    (runState Kernel.init (sched_barge_reader.take 4)).map
      (fun k => (k.l, k.pc 1, k.unblocked)) =
        some (⟨some 0, 0, []⟩, Pc.suspended false true, [1]) ∧
    (run Kernel.init sched_barge_reader).map Outcome.isPanic = some true ∧
    (runState Kernel.init (sched_barge_writer.take 4)).map
      (fun k => (k.l, k.pc 1, k.unblocked)) =
        some (⟨none, 1, []⟩, Pc.suspended true true, [1]) ∧
    (run Kernel.init sched_barge_writer).map Outcome.isPanic = some true := by
  refine ⟨?_, ?_, ?_, ?_⟩ <;> decide

/-- C6, as stated, fails.  Thread `0` holds the lock for writing and calls
`w_lock_acquire` again: no `ASSERT` fails, the thread is appended to `waiters`
and suspended. -/
theorem double_acquire_counterexample :
    runState Kernel.init [⟨0, Op.w_acquire⟩] = some k_held ∧
    k_held.l = ⟨some 0, 0, []⟩ ∧
    (w_lock_acquire k_held 0).isPanic = false ∧
    (w_lock_acquire k_held 0).isBlocked = true ∧
    (w_lock_acquire k_held 0).state.l = ⟨some 0, 0, [0]⟩ ∧
    (w_lock_acquire k_held 0).state.pc 0 = Pc.suspended true false := by
  refine ⟨rfl, ?_, ?_, ?_, ?_, ?_⟩ <;> decide

/-- C6, amended.  A thread that holds the lock for writing and calls
`w_lock_acquire` again fails no `ASSERT` in that call: it is in the first
iteration of the loop, is appended to the back of `waiters` with
`waits_write = true` and is suspended, while `w_holder` and `level` stay as
they are. -/
theorem double_acquire_queues (k : Kernel) (cur : Tid) (h : k.l.w_holder = some cur) :
    (w_lock_acquire k cur).isPanic = false ∧
    (w_lock_acquire k cur).isBlocked = true ∧
    (w_lock_acquire k cur).state.l = { k.l with waiters := k.l.waiters ++ [cur] } ∧
    (w_lock_acquire k cur).state.waits_write cur = true ∧
    (w_lock_acquire k cur).state.pc cur = Pc.suspended true false ∧
    (w_lock_acquire k cur).state.unblocked = k.unblocked := by
  simp [w_lock_acquire, w_lock_acquire_loop, h, Outcome.isPanic, Outcome.isBlocked,
    Outcome.state, thread_block]

/-- C6 amended, at the state in which thread `0` holds the lock for writing. -/
theorem double_acquire_queues_witness :
    k_held.l.w_holder = some 0 ∧
    (w_lock_acquire k_held 0).isPanic = false ∧
    (w_lock_acquire k_held 0).isBlocked = true ∧
    (w_lock_acquire k_held 0).state.l =
      { k_held.l with waiters := k_held.l.waiters ++ [0] } ∧
    (w_lock_acquire k_held 0).state.waits_write 0 = true ∧
    (w_lock_acquire k_held 0).state.pc 0 = Pc.suspended true false ∧
    (w_lock_acquire k_held 0).state.unblocked = k_held.unblocked :=
  ⟨rfl, double_acquire_queues k_held 0 rfl⟩

/-- Readers that arrive one after the other at a lock without write holder and
with all threads idle are all admitted. -/
theorem run_readers (ts : List Tid) :
    ∀ (k : Kernel), k.l.w_holder = none → (∀ t, k.pc t = Pc.idle) →
      ∃ k1, run k (readers ts) = some (Outcome.returned k1) ∧
        k1.l = { k.l with level := k.l.level + ts.length } ∧
        k1.unblocked = k.unblocked := by
  induction ts with
  | nil => intro k _ _; exact ⟨k, rfl, by simp, rfl⟩
  | cons t rest ih =>
    intro k hw hpc
    have hen : enabled k ⟨t, Op.r_acquire⟩ = true := by simp [enabled, hpc]
    have hst : step k ⟨t, Op.r_acquire⟩ = Outcome.returned
        { k with
          waits_write := Function.update k.waits_write t false
          l := { k.l with level := k.l.level + 1 }
          pc := Function.update k.pc t Pc.idle } := by
      simp [step, r_lock_acquire, r_lock_acquire_loop, hw]
    obtain ⟨k1, h1, h2, h3⟩ := ih
      { k with
        waits_write := Function.update k.waits_write t false
        l := { k.l with level := k.l.level + 1 }
        pc := Function.update k.pc t Pc.idle } hw
      (by intro u; by_cases hu : u = t <;> simp [Function.update, hu, hpc])
    refine ⟨k1, ?_, ?_, ?_⟩
    · simp only [run, readers, List.map, runFrom, hen, if_true, hst]
      exact h1
    · rw [h2]; simp; omega
    · rw [h3]

/-- C10 (shared read access).  With `w_holder = NULL`, `r_lock_acquire`
returns without suspending its caller, adds exactly `1` to `level` and leaves
`w_holder`, `waiters` and the log of wake-ups as they are; and from
`rw_lock_init`, the calls of `r_lock_acquire` by the threads `ts`, with nothing
in between, leave `level = ts.length`, no write holder and no waiter. -/
theorem r_lock_acquire_shared (k : Kernel) (cur : Tid) (ts : List Tid)
    (h : k.l.w_holder = none) :
    ((r_lock_acquire k cur).isReturned = true ∧
     (r_lock_acquire k cur).state.l = { k.l with level := k.l.level + 1 } ∧
     (r_lock_acquire k cur).state.unblocked = k.unblocked) ∧
    (run Kernel.init (readers ts)).map Outcome.isReturned = some true ∧
    (runState Kernel.init (readers ts)).map Kernel.l = some ⟨none, ts.length, []⟩ := by
  refine ⟨?_, ?_, ?_⟩
  · simp [r_lock_acquire, r_lock_acquire_loop, h, Outcome.isReturned, Outcome.state]
  · obtain ⟨k1, h1, _, _⟩ := run_readers ts Kernel.init rfl (fun _ => rfl)
    simp [h1, Outcome.isReturned]
  · obtain ⟨k1, h1, h2, _⟩ := run_readers ts Kernel.init rfl (fun _ => rfl)
    rw [runState, h1]
    simp [Outcome.state, h2, Kernel.init, rw_lock_init]

/-- C10 at the state in which `R1 = 1` reads and the writer `2` is queued, and
for the three readers `7, 8, 9`. -/
theorem r_lock_acquire_shared_witness :
    k_pref.l.w_holder = none ∧
    (r_lock_acquire k_pref 3).isReturned = true ∧
    (r_lock_acquire k_pref 3).state.l = ⟨none, 2, [2]⟩ ∧
    (runState Kernel.init (readers [7, 8, 9])).map Kernel.l = some ⟨none, 3, []⟩ :=
  ⟨rfl, (r_lock_acquire_shared k_pref 3 [7, 8, 9] rfl).1.1,
   (r_lock_acquire_shared k_pref 3 [7, 8, 9] rfl).1.2.1,
   (r_lock_acquire_shared k_pref 3 [7, 8, 9] rfl).2.2⟩

end GioSynch

namespace Timer

/-! ## The timer -/

/-- A value in the range of `int64_t` is stored unchanged. -/
theorem wrap64_of_inInt64 (x : Int) (h : InInt64 x) : wrap64 x = x := by
  obtain ⟨h1, h2⟩ := h
  unfold wrap64
  rw [Int.emod_eq_of_lt (by omega) (by omega)]
  omega

/-- The truncated quotient by a positive divisor is positive exactly when the
floor quotient is, and then both are equal. -/
theorem tdiv_pos_iff (x d : Int) (hd : 0 < d) :
    (0 < Int.tdiv x d ↔ 0 < x / d) ∧ (0 < x / d → Int.tdiv x d = x / d) := by
  rcases le_or_lt 0 x with hx | hx
  · have e : Int.tdiv x d = x / d := Int.tdiv_eq_ediv hx (le_of_lt hd)
    rw [e]
    exact ⟨Iff.rfl, fun _ => rfl⟩
  · have h1 : x / d < 0 := Int.ediv_neg' hx hd
    have h2 : Int.tdiv x d ≤ 0 := by
      have h3 : Int.tdiv (-x) d = -(Int.tdiv x d) := Int.neg_tdiv x d
      have h4 : 0 ≤ Int.tdiv (-x) d := Int.tdiv_nonneg (by omega) (le_of_lt hd)
      omega
    constructor
    · constructor <;> intro h <;> omega
    · intro h; omega

/-- The truncated quotient by a positive divisor of a value of `int64_t` is a
value of `int64_t`. -/
theorem tdiv_inInt64 (x d : Int) (hd : 0 < d) (hx : InInt64 x) : InInt64 (Int.tdiv x d) := by
  obtain ⟨h1, h2⟩ := hx
  rcases le_or_lt 0 x with h | h
  · have e : Int.tdiv x d = x / d := Int.tdiv_eq_ediv h (le_of_lt hd)
    have h3 : 0 ≤ x / d := Int.ediv_nonneg h (le_of_lt hd)
    have h4 : x / d ≤ x := Int.ediv_le_self d h
    rw [e]
    exact ⟨by omega, by omega⟩
  · have h3 : Int.tdiv (-x) d = -(Int.tdiv x d) := Int.neg_tdiv x d
    have e : Int.tdiv (-x) d = (-x) / d := Int.tdiv_eq_ediv (by omega) (le_of_lt hd)
    have h5 : 0 ≤ (-x) / d := Int.ediv_nonneg (by omega) (le_of_lt hd)
    have h6 : (-x) / d ≤ -x := Int.ediv_le_self d (by omega)
    exact ⟨by omega, by omega⟩

/-- What `real_time_sleep` does for a positive `denom` when the product does
not overflow, in terms of the floor quotient of the integers. -/
theorem real_time_sleep_ediv (F num denom : Int) (hd : 0 < denom) (h : InInt64 (num * F)) :
    real_time_sleep F intr_level.INTR_ON num denom =
      if 0 < num * F / denom then some (Callee.timer_sleep (num * F / denom))
      else some (Callee.real_time_delay num denom) := by
  have e1 : wrap64 (num * F) = num * F := wrap64_of_inInt64 _ h
  have e2 : div64 (num * F) denom = Int.tdiv (num * F) denom := by
    unfold div64
    exact wrap64_of_inInt64 _ (tdiv_inInt64 _ _ hd h)
  obtain ⟨h1, h2⟩ := tdiv_pos_iff (num * F) denom hd
  simp only [real_time_sleep, e1, e2, if_true, gt_iff_lt]
  by_cases hp : 0 < num * F / denom
  · rw [if_pos (h1.2 hp), if_pos hp, h2 hp]
  · rw [if_neg (fun hq => hp (h1.1 hq)), if_neg hp]

/-- The floor of the rational quotient is the floor quotient of the integers. -/
theorem floor_rat_div (x d : Int) (hd : 0 < d) : ⌊(x : ℚ) / (d : ℚ)⌋ = x / d := by
  obtain ⟨n, rfl⟩ := Int.eq_ofNat_of_zero_le (le_of_lt hd)
  exact_mod_cast Rat.floor_intCast_div_natCast x n

/-- C9 (real-time sleep conversion).  For `denom` one of `1000`, `10^6`,
`10^9` and `num * TIMER_FREQ` within `int64_t`, `real_time_sleep`, called with
interrupts on, calls `timer_sleep` with `floor (num * TIMER_FREQ / denom)` when
that floor is positive, and `real_time_delay (num, denom)` otherwise; the
truncated quotient that the code computes is positive exactly when the floor
is, and equal to it then.  `timer_msleep`, `timer_usleep` and `timer_nsleep`
are `real_time_sleep` with these three values of `denom`. -/
theorem real_time_sleep_floor (TIMER_FREQ num denom : Int)
    (hd : denom = 1000 ∨ denom = 1000 * 1000 ∨ denom = 1000 * 1000 * 1000)
    (h : InInt64 (num * TIMER_FREQ)) :
    (real_time_sleep TIMER_FREQ intr_level.INTR_ON num denom =
      if 0 < ⌊((num * TIMER_FREQ : Int) : ℚ) / (denom : ℚ)⌋ then
        some (Callee.timer_sleep ⌊((num * TIMER_FREQ : Int) : ℚ) / (denom : ℚ)⌋)
      else some (Callee.real_time_delay num denom)) ∧
    (0 < div64 (wrap64 (num * TIMER_FREQ)) denom ↔
      0 < ⌊((num * TIMER_FREQ : Int) : ℚ) / (denom : ℚ)⌋) ∧
    (∀ level, timer_msleep TIMER_FREQ level num = real_time_sleep TIMER_FREQ level num 1000) ∧
    (∀ level, timer_usleep TIMER_FREQ level num =
      real_time_sleep TIMER_FREQ level num (1000 * 1000)) ∧
    (∀ level, timer_nsleep TIMER_FREQ level num =
      real_time_sleep TIMER_FREQ level num (1000 * 1000 * 1000)) := by
  have hpos : 0 < denom := by rcases hd with h1 | h1 | h1 <;> rw [h1] <;> norm_num
  refine ⟨?_, ?_, fun _ => rfl, fun _ => rfl, fun _ => rfl⟩
  · rw [floor_rat_div _ _ hpos]
    exact real_time_sleep_ediv TIMER_FREQ num denom hpos h
  · rw [floor_rat_div _ _ hpos, wrap64_of_inInt64 _ h]
    have e2 : div64 (num * TIMER_FREQ) denom = Int.tdiv (num * TIMER_FREQ) denom := by
      unfold div64
      exact wrap64_of_inInt64 _ (tdiv_inInt64 _ _ hpos h)
    rw [e2]
    exact (tdiv_pos_iff _ _ hpos).1

/-- C9 at `timer_msleep (-15)` with `TIMER_FREQ = 100`: the code computes the
truncated quotient `-1`, the floor is `-2`, and the call goes to
`real_time_delay (-15, 1000)`. -/
theorem real_time_sleep_floor_witness :
    ((1000 : Int) = 1000 ∨ (1000 : Int) = 1000 * 1000 ∨ (1000 : Int) = 1000 * 1000 * 1000) ∧
    InInt64 (-15 * 100) ∧
    div64 (wrap64 (-15 * 100)) 1000 = -1 ∧
    ⌊(((-15 : Int) * 100 : Int) : ℚ) / ((1000 : Int) : ℚ)⌋ = -2 ∧
    timer_msleep 100 intr_level.INTR_ON (-15) = some (Callee.real_time_delay (-15) 1000) := by
  have h := real_time_sleep_floor 100 (-15) 1000 (Or.inl rfl) (by decide)
  have hf : ⌊(((-15 : Int) * 100 : Int) : ℚ) / ((1000 : Int) : ℚ)⌋ = -2 := by
    rw [floor_rat_div _ _ (by norm_num)]; decide
  refine ⟨Or.inl rfl, by decide, by decide, hf, ?_⟩
  rw [h.2.2.1, h.1, hf]
  rfl

end Timer

namespace Timer

/-- The entries that `init_sleeping_thread` builds carry the magic number. -/
theorem entry_magic (c : SleepCall) : c.entry.MAGIC = SLEEPING_THREAD_MAGIC := rfl

/-- On entries that carry the magic number, `list_insert_ordered` with
`sleeping_thread_less_func` links the new entry in behind the longest prefix of
entries that are due no later than it. -/
theorem insert_closed_form (e : sleeping_thread) (he : e.MAGIC = SLEEPING_THREAD_MAGIC) :
    ∀ q : List sleeping_thread, (∀ x ∈ q, x.MAGIC = SLEEPING_THREAD_MAGIC) →
      list_insert_ordered e sleeping_thread_less_func q =
        some (q.takeWhile (fun x => wakeLE x e) ++ e :: q.dropWhile (fun x => wakeLE x e)) := by
  intro q
  induction q with
  | nil => intro _; rfl
  | cons x rest ih =>
    intro hq
    have hx : x.MAGIC = SLEEPING_THREAD_MAGIC := hq x (List.mem_cons_self _ _)
    have hr := ih (fun y hy => hq y (List.mem_cons_of_mem _ hy))
    by_cases hlt : e.wake_up_time < x.wake_up_time
    · have hle : wakeLE x e = false := by simp [wakeLE]; omega
      simp [list_insert_ordered, sleeping_thread_less_func, he, hx, hlt, hle]
    · have hle : wakeLE x e = true := by simp [wakeLE]; omega
      simp [list_insert_ordered, sleeping_thread_less_func, he, hx, hlt, hle, hr]

/-- In an ascending queue, everything behind the insertion point of `e` is due
strictly later than `e`. -/
theorem lt_of_mem_dropWhile (e : sleeping_thread) :
    ∀ q : List sleeping_thread, q.Pairwise (fun a b => wakeLE a b = true) →
      ∀ b ∈ q.dropWhile (fun x => wakeLE x e), e.wake_up_time < b.wake_up_time := by
  intro q
  induction q with
  | nil => intro _ b hb; simp at hb
  | cons x rest ih =>
    intro hs b hb
    rw [List.pairwise_cons] at hs
    by_cases hle : wakeLE x e = true
    · simp only [List.dropWhile_cons, hle, if_true] at hb
      exact ih hs.2 b hb
    · simp only [List.dropWhile_cons, hle] at hb
      have hx : e.wake_up_time < x.wake_up_time := by
        simp [wakeLE] at hle; exact hle
      rcases List.mem_cons.1 hb with rfl | hb1
      · exact hx
      · have := hs.1 b hb1
        simp [wakeLE] at this
        omega

/-- Inserting behind the prefix of entries due no later keeps the queue
ascending. -/
theorem pairwise_insert (e : sleeping_thread) (q : List sleeping_thread)
    (hs : q.Pairwise (fun a b => wakeLE a b = true)) :
    (q.takeWhile (fun x => wakeLE x e) ++ e :: q.dropWhile (fun x => wakeLE x e)).Pairwise
      (fun a b => wakeLE a b = true) := by
  have hsplit := List.takeWhile_append_dropWhile (fun x => wakeLE x e) q
  have hs1 : (q.takeWhile (fun x => wakeLE x e) ++ q.dropWhile (fun x => wakeLE x e)).Pairwise
      (fun a b => wakeLE a b = true) := by rw [hsplit]; exact hs
  rw [List.pairwise_append] at hs1
  obtain ⟨hT, hD, hTD⟩ := hs1
  have hlt := lt_of_mem_dropWhile e q hs
  rw [List.pairwise_append]
  refine ⟨hT, ?_, ?_⟩
  · rw [List.pairwise_cons]
    refine ⟨?_, hD⟩
    intro b hb
    have := hlt b hb
    simp [wakeLE]; omega
  · intro a ha b hb
    have hae : wakeLE a e = true :=
      @List.mem_takeWhile_imp _ (fun x => wakeLE x e) _ _ ha
    rcases List.mem_cons.1 hb with rfl | hb1
    · exact hae
    · have := hlt b hb1
      simp [wakeLE] at hae ⊢
      omega

/-- Inserting into an ascending queue puts the new entry behind all entries
that wake at the same tick: for each wake-up tick, the entries with that tick
are those of the old queue followed by the new entry. -/
theorem filter_insert (e : sleeping_thread) (q : List sleeping_thread)
    (hs : q.Pairwise (fun a b => wakeLE a b = true)) (w : Int) :
    (q.takeWhile (fun x => wakeLE x e) ++ e :: q.dropWhile (fun x => wakeLE x e)).filter
      (wakesAt w) = (q ++ [e]).filter (wakesAt w) := by
  have hsplit := List.takeWhile_append_dropWhile (fun x => wakeLE x e) q
  have hlt := lt_of_mem_dropWhile e q hs
  by_cases hw : wakesAt w e = true
  · have hD : (q.dropWhile (fun x => wakeLE x e)).filter (wakesAt w) = [] := by
      rw [List.filter_eq_nil_iff]
      intro b hb
      have := hlt b hb
      simp [wakesAt] at hw ⊢
      omega
    have hq : q.filter (wakesAt w) = (q.takeWhile (fun x => wakeLE x e)).filter (wakesAt w) := by
      conv_lhs => rw [← hsplit]
      rw [List.filter_append, hD, List.append_nil]
    rw [List.filter_append, List.filter_append, List.filter_cons_of_pos hw, hD, hq]
    simp [List.filter_cons_of_pos hw]
  · have hq : q.filter (wakesAt w) =
        (q.takeWhile (fun x => wakeLE x e)).filter (wakesAt w) ++
        (q.dropWhile (fun x => wakeLE x e)).filter (wakesAt w) := by
      conv_lhs => rw [← hsplit]
      rw [List.filter_append]
    rw [List.filter_append, List.filter_append, List.filter_cons_of_neg hw, hq]
    simp [List.filter_cons_of_neg hw]

/-- A sequence of `timer_sleep` calls on an ascending queue of entries with the
magic number fails no `ASSERT` and leaves an ascending queue in which, for each
wake-up tick, the entries with that tick are the old ones followed by the new
ones in the order of the calls. -/
theorem sleep_all_spec (cs : List SleepCall) :
    ∀ q : List sleeping_thread, (∀ x ∈ q, x.MAGIC = SLEEPING_THREAD_MAGIC) →
      q.Pairwise (fun a b => wakeLE a b = true) →
      ∃ q1, sleep_all cs q = some q1 ∧
        (∀ x ∈ q1, x.MAGIC = SLEEPING_THREAD_MAGIC) ∧
        q1.Pairwise (fun a b => wakeLE a b = true) ∧
        ∀ w, q1.filter (wakesAt w) = (q ++ cs.map SleepCall.entry).filter (wakesAt w) := by
  induction cs with
  | nil => intro q hq hs; exact ⟨q, rfl, hq, hs, by simp⟩
  | cons c rest ih =>
    intro q hq hs
    have hins := insert_closed_form c.entry (entry_magic c) q hq
    have hmem : ∀ x ∈ q.takeWhile (fun x => wakeLE x c.entry) ++
        c.entry :: q.dropWhile (fun x => wakeLE x c.entry), x.MAGIC = SLEEPING_THREAD_MAGIC := by
      intro x hx
      rcases List.mem_append.1 hx with h1 | h1
      · exact hq x ((List.takeWhile_sublist _).subset h1)
      · rcases List.mem_cons.1 h1 with rfl | h2
        · exact entry_magic c
        · exact hq x ((List.dropWhile_sublist _).subset h2)
    obtain ⟨q1, h1, h2, h3, h4⟩ := ih _ hmem (pairwise_insert c.entry q hs)
    refine ⟨q1, ?_, h2, h3, ?_⟩
    · simp only [sleep_all, timer_sleep, if_true]
      have : list_insert_ordered (init_sleeping_thread (wrap64 (c.start + c.ticks)) c.thread)
          sleeping_thread_less_func q = some (q.takeWhile (fun x => wakeLE x c.entry) ++
            c.entry :: q.dropWhile (fun x => wakeLE x c.entry)) := hins
      rw [this]
      exact h1
    · intro w
      rw [h4 w, List.filter_append, filter_insert c.entry q hs w]
      rw [List.map_cons, ← List.filter_append, List.append_assoc]
      rfl

end Timer

namespace Timer

/-- On entries with the magic number and with `ticks` held at `now`, the pass
unblocks the longest prefix of due entries and leaves the rest. -/
theorem drain_fixed (now : Int) :
    ∀ (q : List sleeping_thread) (i : Nat), (∀ x ∈ q, x.MAGIC = SLEEPING_THREAD_MAGIC) →
      drain (fun _ => now) i q =
        { unblocked := (q.takeWhile (due now)).map (fun e => (e, now))
          queue := q.dropWhile (due now)
          panicked := false } := by
  intro q
  induction q with
  | nil => intro i _; rfl
  | cons x rest ih =>
    intro i hq
    have hx : x.MAGIC = SLEEPING_THREAD_MAGIC := hq x (List.mem_cons_self _ _)
    have hr := ih (i + 1) (fun y hy => hq y (List.mem_cons_of_mem _ hy))
    by_cases hd : x.wake_up_time ≤ now
    · have hdd : due now x = true := by simp [due, hd]
      simp [drain, hx, hd, hr, List.takeWhile_cons, List.dropWhile_cons, hdd]
    · have hdd : due now x = false := by simp [due, hd]
      simp [drain, hx, hd, List.takeWhile_cons, List.dropWhile_cons, hdd]

/-- In an ascending queue the due entries form a prefix. -/
theorem takeWhile_due_eq_filter (now : Int) :
    ∀ q : List sleeping_thread, q.Pairwise (fun a b => wakeLE a b = true) →
      q.takeWhile (due now) = q.filter (due now) ∧
      q.dropWhile (due now) = q.filter (fun e => !due now e) := by
  intro q
  induction q with
  | nil => intro _; simp
  | cons x rest ih =>
    intro hs
    rw [List.pairwise_cons] at hs
    obtain ⟨h1, h2⟩ := ih hs.2
    by_cases hd : due now x = true
    · simp [List.takeWhile_cons, List.dropWhile_cons, hd, h1, h2]
    · have hnone : ∀ b ∈ rest, due now b = false := by
        intro b hb
        have hxb := hs.1 b hb
        simp [wakeLE, due] at hxb hd ⊢
        omega
      have e1 : rest.filter (due now) = [] := by
        rw [List.filter_eq_nil_iff]
        intro b hb; simp [hnone b hb]
      have e2 : rest.filter (fun e => !due now e) = rest := by
        rw [List.filter_eq_self]
        intro b hb; simp [hnone b hb]
      simp only [Bool.not_eq_true] at hd
      simp [List.takeWhile_cons, List.dropWhile_cons, hd, e1, e2]

/-- Two ascending lists that have, for every wake-up tick, the same entries
with that tick in the same order are equal. -/
theorem eq_of_pairwise_of_filter_eq :
    ∀ l1 l2 : List sleeping_thread,
      l1.Pairwise (fun a b => wakeLE a b = true) → l2.Pairwise (fun a b => wakeLE a b = true) →
      (∀ w, l1.filter (wakesAt w) = l2.filter (wakesAt w)) → l1 = l2 := by
  intro l1
  induction l1 with
  | nil =>
    intro l2 _ _ h
    cases l2 with
    | nil => rfl
    | cons b r =>
      have := h b.wake_up_time
      simp [wakesAt] at this
  | cons a r1 ih =>
    intro l2 hs1 hs2 h
    cases l2 with
    | nil =>
      have := h a.wake_up_time
      simp [wakesAt] at this
    | cons b r2 =>
      rw [List.pairwise_cons] at hs1 hs2
      have ha : a ∈ (b :: r2) := by
        have hm : a ∈ (a :: r1).filter (wakesAt a.wake_up_time) := by simp [wakesAt]
        rw [h a.wake_up_time] at hm
        exact (List.mem_filter.1 hm).1
      have hb : b ∈ (a :: r1) := by
        have hm : b ∈ (b :: r2).filter (wakesAt b.wake_up_time) := by simp [wakesAt]
        rw [← h b.wake_up_time] at hm
        exact (List.mem_filter.1 hm).1
      have hba : b.wake_up_time ≤ a.wake_up_time := by
        rcases List.mem_cons.1 ha with e | hm
        · rw [e]
        · have := hs2.1 a hm
          simpa [wakeLE] using this
      have hab : a.wake_up_time ≤ b.wake_up_time := by
        rcases List.mem_cons.1 hb with e | hm
        · rw [e]
        · have := hs1.1 b hm
          simpa [wakeLE] using this
      have hkey : b.wake_up_time = a.wake_up_time := le_antisymm hba hab
      have h0 := h a.wake_up_time
      have wa : wakesAt a.wake_up_time a = true := by simp [wakesAt]
      have wb : wakesAt a.wake_up_time b = true := by simp [wakesAt, hkey]
      rw [List.filter_cons_of_pos wa, List.filter_cons_of_pos wb] at h0
      have hab2 : a = b := (List.cons.inj h0).1
      have hrest : ∀ w, r1.filter (wakesAt w) = r2.filter (wakesAt w) := by
        intro w
        by_cases hw : wakesAt w a = true
        · have hwb : wakesAt w b = true := by rw [← hab2]; exact hw
          have hh := h w
          rw [List.filter_cons_of_pos hw, List.filter_cons_of_pos hwb] at hh
          exact (List.cons.inj hh).2
        · have hwb : ¬ wakesAt w b = true := by rw [← hab2]; exact hw
          have hh := h w
          rw [List.filter_cons_of_neg hw, List.filter_cons_of_neg hwb] at hh
          exact hh
      rw [hab2, ih r2 hs1.2 hs2.2 hrest]

/-- The order of the sleep queue is transitive. -/
theorem wakeLE_trans (a b c : sleeping_thread) :
    wakeLE a b = true → wakeLE b c = true → wakeLE a c = true := by
  simp only [wakeLE, decide_eq_true_eq]; omega

/-- The order of the sleep queue is total. -/
theorem wakeLE_total (a b : sleeping_thread) : (wakeLE a b || wakeLE b a) = true := by
  simp only [wakeLE, Bool.or_eq_true, decide_eq_true_eq]; omega

/-- The stable merge sort keeps, for each wake-up tick, the entries with that
tick in their order. -/
theorem filter_mergeSort (l : List sleeping_thread) (w : Int) :
    (l.mergeSort wakeLE).filter (wakesAt w) = l.filter (wakesAt w) := by
  have hpw : (l.filter (wakesAt w)).Pairwise (fun a b => wakeLE a b = true) := by
    rw [List.pairwise_iff_forall_sublist]
    intro a b hab
    have ha : a ∈ l.filter (wakesAt w) := hab.subset (by simp)
    have hb : b ∈ l.filter (wakesAt w) := hab.subset (by simp)
    have h1 := (List.mem_filter.1 ha).2
    have h2 := (List.mem_filter.1 hb).2
    simp [wakesAt, wakeLE] at h1 h2 ⊢
    omega
  have hsub : (l.filter (wakesAt w)).Sublist (l.mergeSort wakeLE) :=
    List.sublist_mergeSort wakeLE_trans wakeLE_total hpw (List.filter_sublist l)
  have hsub2 := hsub.filter (wakesAt w)
  rw [List.filter_filter] at hsub2
  simp only [Bool.and_self] at hsub2
  have hlen : (l.filter (wakesAt w)).length = ((l.mergeSort wakeLE).filter (wakesAt w)).length :=
    ((List.mergeSort_perm l wakeLE).filter (wakesAt w)).length_eq.symm
  exact (hsub2.eq_of_length hlen).symm

/-- Enqueueing by `timer_sleep` into the empty queue builds the stable sort of
the entries by wake-up tick. -/
theorem sleep_all_eq_mergeSort (cs : List SleepCall) :
    sleep_all cs [] = some ((cs.map SleepCall.entry).mergeSort wakeLE) := by
  obtain ⟨q, h1, _, h3, h4⟩ := sleep_all_spec cs [] (by simp) List.Pairwise.nil
  rw [h1]
  congr 1
  apply eq_of_pairwise_of_filter_eq _ _ h3
    (List.sorted_mergeSort wakeLE_trans wakeLE_total _)
  intro w
  rw [h4 w, filter_mergeSort]
  simp

end Timer

namespace Timer

/-- C7 (sleep-queue drain order).  The calls of `timer_sleep` on the empty
queue fail no `ASSERT` and build the queue `q` that is the stable sort of their
entries by `wake_up_time`: ascending, with the entries of equal `wake_up_time`
in the order of the calls.  One pass of the worker with `ticks` held at `now`
fails no `ASSERT`, calls `thread_unblock` on exactly the entries of `q` with
`wake_up_time <= now`, in the order of `q`, and leaves exactly the entries with
`wake_up_time > now`, in the order of `q`.  For the deadlines `[5, 2, 8, 2]` of
the threads `1` to `4` and `now = 10`, the threads are unblocked in the order
`2, 4, 1, 3`, that is at the deadlines `2, 2, 5, 8`, and the queue ends empty. -/
theorem sleep_queue_drain_order (calls : List SleepCall) (now : Int) :
    (∃ q p, sleep_all calls [] = some q ∧ drain (fun _ => now) 0 q = p ∧
      q = (calls.map SleepCall.entry).mergeSort wakeLE ∧
      q.Pairwise (fun a b => a.wake_up_time ≤ b.wake_up_time) ∧
      (∀ w, q.filter (wakesAt w) = (calls.map SleepCall.entry).filter (wakesAt w)) ∧
      p.panicked = false ∧
      p.unblocked.map Prod.fst = q.filter (due now) ∧
      p.queue = q.filter (fun e => !due now e) ∧
      (p.unblocked.map Prod.fst).Pairwise (fun a b => a.wake_up_time ≤ b.wake_up_time) ∧
      p.queue.Pairwise (fun a b => a.wake_up_time ≤ b.wake_up_time) ∧
      (∀ w, (p.unblocked.map Prod.fst).filter (wakesAt w) =
        ((calls.map SleepCall.entry).filter (due now)).filter (wakesAt w)) ∧
      (∀ w, p.queue.filter (wakesAt w) =
        ((calls.map SleepCall.entry).filter (fun e => !due now e)).filter (wakesAt w))) ∧
    (sleep_all calls_5_2_8_2 []).map
      (fun q => ((drain (fun _ => 10) 0 q).unblocked.map
          (fun x => (x.1.thread, x.1.wake_up_time)),
        (drain (fun _ => 10) 0 q).queue, (drain (fun _ => 10) 0 q).panicked)) =
      some ([(2, 2), (4, 2), (1, 5), (3, 8)], [], false) := by
  constructor
  · obtain ⟨q, h1, h2, h3, h4⟩ := sleep_all_spec calls [] (by simp) List.Pairwise.nil
    have hms := sleep_all_eq_mergeSort calls
    have hq : q = (calls.map SleepCall.entry).mergeSort wakeLE := by
      rw [h1] at hms; exact Option.some.inj hms
    have hd := drain_fixed now q 0 h2
    obtain ⟨e1, e2⟩ := takeWhile_due_eq_filter now q h3
    have hpw : q.Pairwise (fun a b => a.wake_up_time ≤ b.wake_up_time) := by
      refine h3.imp ?_
      intro a b hab
      simpa [wakeLE] using hab
    have hu : (drain (fun _ => now) 0 q).unblocked.map Prod.fst = q.filter (due now) := by
      rw [hd]; simp [List.map_map, Function.comp_def, e1]
    have hr : (drain (fun _ => now) 0 q).queue = q.filter (fun e => !due now e) := by
      rw [hd]; exact e2
    have h4a : ∀ w, q.filter (wakesAt w) = (calls.map SleepCall.entry).filter (wakesAt w) := by
      intro w; simpa using h4 w
    have hcomm : ∀ (f g : sleeping_thread → Bool) (l : List sleeping_thread),
        (l.filter f).filter g = (l.filter g).filter f := by
      intro f g l
      rw [List.filter_filter, List.filter_filter]
      congr 1; funext x; exact Bool.and_comm _ _
    refine ⟨q, _, h1, rfl, hq, hpw, h4a, by rw [hd], hu, hr, ?_, ?_, ?_, ?_⟩
    · rw [hu]; exact hpw.filter _
    · rw [hr]; exact hpw.filter _
    · intro w
      rw [hu, hcomm, h4a w, hcomm]
    · intro w
      rw [hr, hcomm, h4a w, hcomm]
  · decide

/-- The entries of the queue after `list_insert_ordered` are the new entry and
the old entries. -/
theorem mem_list_insert_ordered {α : Type} (elem : α) (less : α → α → Option Bool) :
    ∀ (q q1 : List α), list_insert_ordered elem less q = some q1 →
      ∀ x, x ∈ q1 ↔ x = elem ∨ x ∈ q := by
  intro q
  induction q with
  | nil =>
    intro q1 h x
    simp only [list_insert_ordered, Option.some.injEq] at h
    subst h; simp
  | cons e rest ih =>
    intro q1 h x
    simp only [list_insert_ordered] at h
    split at h
    · exact absurd h (by simp)
    · simp only [Option.some.injEq] at h
      subst h; simp
    · split at h
      · exact absurd h (by simp)
      · rename_i r1 hr1
        simp only [Option.some.injEq] at h
        subst h
        have := ih r1 hr1 x
        simp only [List.mem_cons, this]
        tauto

/-- The worker unblocks an entry only after reading a value of `ticks` that is
not below its `wake_up_time`. -/
theorem drain_unblocked_due (ticks : Nat → Int) :
    ∀ (q : List sleeping_thread) (i : Nat), ∀ x ∈ (drain ticks i q).unblocked,
      x.1 ∈ q ∧ x.1.wake_up_time ≤ x.2 ∧ ∃ j, i ≤ j ∧ x.2 = ticks j := by
  intro q
  induction q with
  | nil => intro i x hx; simp [drain] at hx
  | cons e rest ih =>
    intro i x hx
    unfold drain at hx
    split at hx
    · split at hx
      · rename_i hdue
        simp only [List.mem_cons] at hx
        rcases hx with rfl | hx
        · exact ⟨List.mem_cons_self _ _, hdue, i, le_refl _, rfl⟩
        · obtain ⟨h1, h2, j, h3, h4⟩ := ih (i + 1) x hx
          exact ⟨List.mem_cons_of_mem _ h1, h2, j, by omega, h4⟩
      · simp at hx
    · simp at hx

/-- C8 (never woken early).  Whatever the list holds, sorted or not, and
whatever values `ticks` takes during the pass, the worker calls
`thread_unblock` for an entry of the list only after a test that read a value
of `ticks` not below the `wake_up_time` of the entry.  A `timer_sleep (n)` by
`cur` at tick `t` enqueues an entry with `wake_up_time = t + n` (the `int64_t`
sum); when `cur` has no other entry in the list, every unblocking of `cur` by a
later pass reads `ticks >= t + n`. -/
theorem never_woken_early (ticks : Nat → Int) (i : Nat) (q0 q : List sleeping_thread)
    (t n : Int) (cur : Tid) (hq0 : ∀ e ∈ q0, e.thread ≠ cur)
    (hs : timer_sleep intr_level.INTR_ON t cur n q0 = some q) :
    (∀ (j : Nat) (l : List sleeping_thread), ∀ x ∈ (drain ticks j l).unblocked,
      x.1 ∈ l ∧ x.1.wake_up_time ≤ x.2 ∧ ∃ m, j ≤ m ∧ x.2 = ticks m) ∧
    init_sleeping_thread (wrap64 (t + n)) cur ∈ q ∧
    (∀ e ∈ q, e.thread = cur → e.wake_up_time = wrap64 (t + n)) ∧
    (InInt64 (t + n) → wrap64 (t + n) = t + n) ∧
    (∀ x ∈ (drain ticks i q).unblocked, x.1.thread = cur →
      wrap64 (t + n) ≤ x.2 ∧ (InInt64 (t + n) → t + n ≤ x.2)) := by
  have hmem := mem_list_insert_ordered (init_sleeping_thread (wrap64 (t + n)) cur)
    sleeping_thread_less_func q0 q (by simpa [timer_sleep] using hs)
  have hown : ∀ e ∈ q, e.thread = cur → e.wake_up_time = wrap64 (t + n) := by
    intro e he hc
    rcases (hmem e).1 he with rfl | h0
    · rfl
    · exact absurd hc (hq0 e h0)
  refine ⟨fun j l => drain_unblocked_due ticks l j, (hmem _).2 (Or.inl rfl), hown,
    wrap64_of_inInt64 _, ?_⟩
  intro x hx hc
  obtain ⟨h1, h2, _⟩ := drain_unblocked_due ticks q i x hx
  have hw := hown x.1 h1 hc
  refine ⟨by rw [← hw]; exact h2, ?_⟩
  intro hin
  rw [← wrap64_of_inInt64 _ hin, ← hw]
  exact h2

/-- C8 at the queue of `calls_5_2_8_2` with thread `9` sleeping `7` ticks from
tick `1`: the passes at the ticks `7` and `8` unblock the entries due, and
thread `9` only at tick `8`. -/
theorem never_woken_early_witness :
    sleep_all calls_5_2_8_2 [] = some queue_2_2_5_8 ∧
    (∀ e ∈ queue_2_2_5_8, e.thread ≠ 9) ∧
    timer_sleep intr_level.INTR_ON 1 9 7 queue_2_2_5_8 = some queue_2_2_5_8_8 ∧
    (drain (fun _ => 7) 0 queue_2_2_5_8_8).unblocked.map (fun x => x.1.thread) = [2, 4, 1] ∧
    (drain (fun _ => 8) 0 queue_2_2_5_8_8).unblocked.map (fun x => x.1.thread) =
      [2, 4, 1, 3, 9] ∧
    (∀ x ∈ (drain (fun _ => 8) 0 queue_2_2_5_8_8).unblocked,
      x.1.thread = 9 → wrap64 (1 + 7) ≤ x.2 ∧ (InInt64 (1 + 7) → 1 + 7 ≤ x.2)) :=
  ⟨by decide, by decide, by decide, by decide, by decide,
   (never_woken_early (fun _ => 8) 0 queue_2_2_5_8 queue_2_2_5_8_8 1 7 9
      (by decide) (by decide)).2.2.2.2⟩

end Timer

namespace GioSynch

/-- C11 (exclusive write acquisition).  `w_lock_acquire` by `cur` fails no
`ASSERT` and tags `cur` with `waits_write = true`; it returns, with
`w_holder = cur` and nothing else of the lock changed, exactly when
`w_holder = NULL` and `level = 0` on entry; otherwise it appends `cur` to the
back of `waiters` and suspends it, with `w_holder` and `level` unchanged.  The
suspended writer takes `w_holder` only when it runs again, and then only with
`w_holder = NULL` and `level = 0`: any other resumption leaves the lock as it
is and fails `ASSERT (is_first_iteration)`. -/
theorem w_lock_acquire_exclusive (k : Kernel) (cur : Tid) :
    ((w_lock_acquire k cur).isReturned = true ↔ (k.l.w_holder = none ∧ k.l.level = 0)) ∧
    ((w_lock_acquire k cur).isBlocked = true ↔ ¬ (k.l.w_holder = none ∧ k.l.level = 0)) ∧
    (w_lock_acquire k cur).isPanic = false ∧
    (w_lock_acquire k cur).state.waits_write cur = true ∧
    (w_lock_acquire k cur).state.unblocked = k.unblocked ∧
    ((k.l.w_holder = none ∧ k.l.level = 0) →
      (w_lock_acquire k cur).state.l = { k.l with w_holder := some cur }) ∧
    (¬ (k.l.w_holder = none ∧ k.l.level = 0) →
      (w_lock_acquire k cur).state.l = { k.l with waiters := k.l.waiters ++ [cur] } ∧
      (w_lock_acquire k cur).state.pc cur = Pc.suspended true false) ∧
    (∀ woken : Bool, k.pc cur = Pc.suspended true woken →
      ((resume k cur).isReturned = true ↔ (k.l.w_holder = none ∧ k.l.level = 0)) ∧
      ((resume k cur).isPanic = true ↔ ¬ (k.l.w_holder = none ∧ k.l.level = 0)) ∧
      ((k.l.w_holder = none ∧ k.l.level = 0) →
        (resume k cur).state.l = { k.l with w_holder := some cur }) ∧
      (¬ (k.l.w_holder = none ∧ k.l.level = 0) → (resume k cur).state.l = k.l)) := by
  by_cases h : k.l.w_holder = none ∧ k.l.level = 0
  · obtain ⟨h1, h2⟩ := h
    refine ⟨?_, ?_, ?_, ?_, ?_, ?_, ?_, ?_⟩
    rotate_right
    · intro woken hpc
      simp [resume, hpc, w_lock_acquire_loop, h1, h2, Outcome.isReturned, Outcome.isPanic,
        Outcome.state]
    all_goals
      simp [w_lock_acquire, w_lock_acquire_loop, h1, h2, Outcome.isReturned, Outcome.isBlocked,
        Outcome.isPanic, Outcome.state]
  · have hc : (k.l.w_holder.isSome || k.l.level != 0) = true := by
      cases hw : k.l.w_holder with
      | some w => simp
      | none =>
        simp only [hw, true_and] at h
        simp [h]
    refine ⟨?_, ?_, ?_, ?_, ?_, ?_, ?_, ?_⟩
    rotate_right
    · intro woken hpc
      simp only [resume, hpc, w_lock_acquire_loop, hc, if_true, Outcome.isReturned,
        Outcome.isPanic, Outcome.state]
      simp [h]
    all_goals
      simp only [w_lock_acquire, w_lock_acquire_loop, hc, if_true, Outcome.isReturned,
        Outcome.isBlocked, Outcome.isPanic, Outcome.state, thread_block]
      try simp [h]

/-- C11 at the state in which the reader `1` holds the lock: the writer `2`
is queued, and the woken writer of `k_writer_woken` takes the free lock. -/
theorem w_lock_acquire_exclusive_witness :
    ¬ ((step Kernel.init ⟨1, Op.r_acquire⟩).state.l.w_holder = none ∧
       (step Kernel.init ⟨1, Op.r_acquire⟩).state.l.level = 0) ∧
    (w_lock_acquire (step Kernel.init ⟨1, Op.r_acquire⟩).state 2).state.l = ⟨none, 1, [2]⟩ ∧
    k_writer_woken.pc 1 = Pc.suspended true true ∧
    (k_writer_woken.l.w_holder = none ∧ k_writer_woken.l.level = 0) ∧
    (resume k_writer_woken 1).state.l = ⟨some 1, 0, []⟩ :=
  ⟨by decide,
   ((w_lock_acquire_exclusive (step Kernel.init ⟨1, Op.r_acquire⟩).state 2).2.2.2.2.2.2.1
      (by decide)).1,
   by decide, by decide,
   ((w_lock_acquire_exclusive k_writer_woken 1).2.2.2.2.2.2.2 true (by decide)).2.2.1
      (by decide)⟩

/-- C12 (release by a thread that is not the write holder).  `w_lock_release`
by `cur` fails its `ASSERT` exactly when `w_holder` is not `cur`, and then it
has changed nothing: the lock, every `waits_write`, every thread position and
the log of wake-ups are as on entry. -/
theorem w_lock_release_not_holder_fatal (k : Kernel) (cur : Tid) :
    ((w_lock_release k cur).isPanic = true ↔ k.l.w_holder ≠ some cur) ∧
    ((w_lock_release k cur).isReturned = true ↔ k.l.w_holder = some cur) ∧
    (w_lock_release k cur).isBlocked = false ∧
    (k.l.w_holder ≠ some cur →
      (w_lock_release k cur).state.l = k.l ∧
      (w_lock_release k cur).state.unblocked = k.unblocked ∧
      (w_lock_release k cur).state.pc = k.pc ∧
      (w_lock_release k cur).state.waits_write = k.waits_write) := by
  by_cases h : k.l.w_holder = some cur
  · simp [w_lock_release, h, Outcome.isPanic, Outcome.isReturned, Outcome.isBlocked]
  · simp [w_lock_release, h, Outcome.isPanic, Outcome.isReturned, Outcome.isBlocked,
      Outcome.state]

/-- C12 at the free lock and at the lock that thread `0` holds: the release by
thread `1` fails in both and leaves the lock as it is. -/
theorem w_lock_release_not_holder_fatal_witness :
    Kernel.init.l.w_holder ≠ some 1 ∧ (w_lock_release Kernel.init 1).isPanic = true ∧
    k_held.l.w_holder ≠ some 1 ∧ (w_lock_release k_held 1).isPanic = true ∧
    (w_lock_release k_held 1).state.l = k_held.l ∧
    (w_lock_release k_held 1).state.unblocked = k_held.unblocked :=
  ⟨by decide, (w_lock_release_not_holder_fatal Kernel.init 1).1.2 (by decide),
   by decide, (w_lock_release_not_holder_fatal k_held 1).1.2 (by decide),
   ((w_lock_release_not_holder_fatal k_held 1).2.2.2 (by decide)).1,
   ((w_lock_release_not_holder_fatal k_held 1).2.2.2 (by decide)).2.1⟩

end GioSynch

namespace GioSynch

/-- The position that `thread_unblock` leaves. -/
theorem thread_unblock_pc (k : Kernel) (t : Tid) :
    (thread_unblock k t).pc = Function.update k.pc t (k.pc t).wake := by
  unfold thread_unblock Pc.wake
  cases h : k.pc t <;> simp [h]

/-- Waking is idempotent. -/
theorem wake_wake (p : Pc) : p.wake.wake = p.wake := by
  cases p <;> rfl

/-- The wake-up loop of `w_lock_release` removes a prefix `p` of the list,
calls `thread_unblock` on the threads of `p` in order, wakes them and leaves
all other threads where they are; started with `did_one = false` on a list
that is not empty, it wakes somebody. -/
theorem w_lock_release_loop_spec (ws : List Tid) :
    ∀ (k : Kernel) (d : Bool),
      ∃ p, ws = p ++ (w_lock_release_loop k ws d).l.waiters ∧
        (w_lock_release_loop k ws d).unblocked = k.unblocked ++ p ∧
        (∀ t, t ∉ p → (w_lock_release_loop k ws d).pc t = k.pc t) ∧
        (∀ t ∈ p, (w_lock_release_loop k ws d).pc t = (k.pc t).wake) ∧
        (d = false → ws ≠ [] → p ≠ []) := by
  induction ws with
  | nil =>
    intro k d
    exact ⟨[], by simp [w_lock_release_loop], by simp [w_lock_release_loop],
      by simp [w_lock_release_loop], by simp, by simp⟩
  | cons t rest ih =>
    intro k d
    unfold w_lock_release_loop
    by_cases hw : k.waits_write t = true
    · cases d with
      | false =>
        refine ⟨[t], ?_, ?_, ?_, ?_, ?_⟩
        · simp [hw]
        · simp [hw]
        · intro u hu
          have hne : u ≠ t := by simpa using hu
          simp [hw, thread_unblock_pc, Function.update, hne]
        · intro u hu
          have he : u = t := by simpa using hu
          subst he
          simp [hw, thread_unblock_pc]
        · simp
      | true =>
        refine ⟨[], ?_, ?_, ?_, ?_, ?_⟩
        · simp [hw]
        · simp [hw]
        · intro u _; simp [hw]
        · intro u hu; simp at hu
        · simp
    · obtain ⟨p, h1, h2, h3, h4, _⟩ :=
        ih (thread_unblock { k with l := { k.l with waiters := rest } } t) true
      simp only [hw, if_false, Bool.false_eq_true]
      refine ⟨t :: p, ?_, ?_, ?_, ?_, ?_⟩
      · simp only [List.cons_append]
        exact congrArg (List.cons t) h1
      · rw [h2]; simp
      · intro u hu
        simp only [List.mem_cons, not_or] at hu
        rw [h3 u hu.2, thread_unblock_pc]
        simp [Function.update, hu.1]
      · intro u hu
        by_cases hup : u ∈ p
        · rw [h4 u hup, thread_unblock_pc]
          by_cases hut : u = t
          · subst hut; simp [wake_wake]
          · simp [Function.update, hut]
        · have hut : u = t := by
            rcases List.mem_cons.1 hu with e | e
            · exact e
            · exact absurd e hup
          subst hut
          rw [h3 u hup, thread_unblock_pc]
          simp
      · simp

end GioSynch

namespace GioSynch

/-- A thread that is idle or woken is not among the waiters. -/
theorem not_mem_waiters (k : Kernel) (t : Tid) (h : WaitersBlocked k)
    (hpc : k.pc t = Pc.idle ∨ ∃ w, k.pc t = Pc.suspended w true) : t ∉ k.l.waiters := by
  intro hm
  have := h.2 t hm
  rcases hpc with h1 | ⟨w, h1⟩ <;> rw [h1] at this <;> simp at this

/-- The thread of an enabled event is idle or woken. -/
theorem enabled_pc (k : Kernel) (e : Event) (hen : enabled k e = true) :
    (e.op ≠ Op.resume ∧ k.pc e.t = Pc.idle) ∨
    (e.op = Op.resume ∧ ∃ w, k.pc e.t = Pc.suspended w true) := by
  obtain ⟨t, op⟩ := e
  unfold enabled at hen
  cases op <;> cases hp : k.pc t with
    | idle => simp_all
    | suspended w wk => cases wk <;> simp_all

/-- Changes to a thread that does not wait keep `WaitersBlocked`. -/
theorem waitersBlocked_update (k k1 : Kernel) (cur : Tid) (h : WaitersBlocked k)
    (hcur : cur ∉ k.l.waiters) (hw : k1.l.waiters = k.l.waiters)
    (hpc : ∀ t, t ≠ cur → k1.pc t = k.pc t)
    (hww : ∀ t, t ≠ cur → k1.waits_write t = k.waits_write t) : WaitersBlocked k1 := by
  refine ⟨by rw [hw]; exact h.1, ?_⟩
  intro t ht
  rw [hw] at ht
  have hne : t ≠ cur := fun e => hcur (e ▸ ht)
  rw [hpc t hne, hww t hne]
  exact h.2 t ht

/-- Queueing and suspending a thread that does not wait keeps
`WaitersBlocked`. -/
theorem waitersBlocked_enqueue (k k1 : Kernel) (cur : Tid) (h : WaitersBlocked k)
    (hcur : cur ∉ k.l.waiters) (hw : k1.l.waiters = k.l.waiters ++ [cur])
    (hpc : ∀ t, t ≠ cur → k1.pc t = k.pc t)
    (hww : ∀ t, t ≠ cur → k1.waits_write t = k.waits_write t)
    (hc : k1.pc cur = Pc.suspended (k1.waits_write cur) false) : WaitersBlocked k1 := by
  refine ⟨?_, ?_⟩
  · rw [hw]
    exact List.Nodup.append h.1 (List.nodup_singleton cur)
      (by
        intro a ha hb
        have : a = cur := by simpa using hb
        exact hcur (this ▸ ha))
  · intro t ht
    rw [hw] at ht
    rcases List.mem_append.1 ht with h1 | h1
    · have hne : t ≠ cur := fun e => hcur (e ▸ h1)
      rw [hpc t hne, hww t hne]
      exact h.2 t h1
    · have : t = cur := by simpa using h1
      rw [this]; exact hc

/-- Removing a prefix of the waiters, whatever happens to the threads removed,
keeps `WaitersBlocked`. -/
theorem waitersBlocked_dequeue (k k1 : Kernel) (p : List Tid) (h : WaitersBlocked k)
    (hw : k.l.waiters = p ++ k1.l.waiters)
    (hpc : ∀ t, t ∉ p → k1.pc t = k.pc t)
    (hww : k1.waits_write = k.waits_write) : WaitersBlocked k1 := by
  have hnd := h.1
  rw [hw] at hnd
  refine ⟨(List.nodup_append.1 hnd).2.1, ?_⟩
  intro t ht
  have hnp : t ∉ p := fun hp => (List.nodup_append.1 hnd).2.2 hp ht
  rw [hpc t hnp, hww]
  exact h.2 t (by rw [hw]; exact List.mem_append_right _ ht)

/-- The five ways through `r_lock_release`: `ASSERT (l->level)` fails; the
call returns after the decrement alone; `ASSERT (!l->w_holder)` fails;
`ASSERT (t->waits_write)` fails after the front waiter has been popped; the
front waiter is popped and unblocked. -/
theorem r_lock_release_cases (k : Kernel) (cur : Tid) :
    (k.l.level = 0 ∧ r_lock_release k cur = Outcome.panic k) ∨
    (k.l.level ≠ 0 ∧ (k.l.level - 1 ≠ 0 ∨ k.l.waiters = []) ∧
      r_lock_release k cur =
        Outcome.returned { k with l := { k.l with level := k.l.level - 1 } }) ∨
    (k.l.level = 1 ∧ ∃ t rest, k.l.waiters = t :: rest ∧
      ((k.l.w_holder ≠ none ∧ r_lock_release k cur =
          Outcome.panic { k with l := { k.l with level := 0 } }) ∨
       (k.l.w_holder = none ∧ k.waits_write t = false ∧ r_lock_release k cur =
          Outcome.panic { k with l := { k.l with level := 0, waiters := rest } }) ∨
       (k.l.w_holder = none ∧ k.waits_write t = true ∧ r_lock_release k cur =
          Outcome.returned
            (thread_unblock { k with l := { k.l with level := 0, waiters := rest } } t)))) := by
  by_cases hl : k.l.level = 0
  · left; exact ⟨hl, by simp [r_lock_release, hl]⟩
  · right
    by_cases hz : k.l.level - 1 = 0
    · cases hws : k.l.waiters with
      | nil =>
        left
        exact ⟨hl, Or.inr rfl, by simp [r_lock_release, hl, hz, hws]⟩
      | cons t rest =>
        right
        have h1 : k.l.level = 1 := by omega
        refine ⟨h1, t, rest, rfl, ?_⟩
        cases hh : k.l.w_holder with
        | some w =>
          left
          exact ⟨by simp, by simp [r_lock_release, h1, hws, hh]⟩
        | none =>
          right
          cases hww : k.waits_write t with
          | false =>
            left
            exact ⟨rfl, rfl, by simp [r_lock_release, h1, hws, hh, hww]⟩
          | true =>
            right
            exact ⟨rfl, rfl, by simp [r_lock_release, h1, hws, hh, hww]⟩
    · left
      exact ⟨hl, Or.inl hz, by simp [r_lock_release, hl, hz]⟩

/-- Every enabled event that fails no `ASSERT` keeps `WaitersBlocked`. -/
theorem waitersBlocked_step (k : Kernel) (e : Event) (h : WaitersBlocked k)
    (hen : enabled k e = true) (hnp : (step k e).isPanic = false) :
    WaitersBlocked (step k e).state := by
  have hcur : e.t ∉ k.l.waiters := by
    apply not_mem_waiters k e.t h
    rcases enabled_pc k e hen with ⟨_, h1⟩ | ⟨_, h1⟩
    · exact Or.inl h1
    · exact Or.inr h1
  obtain ⟨t, op⟩ := e
  simp only at hcur
  cases op
  · -- r_acquire
    simp only [step, r_lock_acquire, r_lock_acquire_loop]
    split
    · apply waitersBlocked_enqueue k _ t h hcur
      · simp [Outcome.state, thread_block]
      · intro u hu; simp [Outcome.state, thread_block, Function.update, hu]
      · intro u hu; simp [Outcome.state, thread_block, Function.update, hu]
      · simp [Outcome.state, thread_block]
    · apply waitersBlocked_update k _ t h hcur
      · simp [Outcome.state]
      · intro u hu; simp [Outcome.state, Function.update, hu]
      · intro u hu; simp [Outcome.state, Function.update, hu]
  · -- r_release
    simp only [step] at hnp ⊢
    rcases r_lock_release_cases k t with ⟨_, hr⟩ | ⟨_, _, hr⟩ | ⟨_, u, rest, hws, hc⟩
    · rw [hr]; exact h
    · rw [hr]; exact ⟨h.1, h.2⟩
    · rcases hc with ⟨_, hr⟩ | ⟨_, _, hr⟩ | ⟨_, _, hr⟩
      · rw [hr] at hnp; simp [Outcome.isPanic] at hnp
      · rw [hr] at hnp; simp [Outcome.isPanic] at hnp
      · rw [hr]
        apply waitersBlocked_dequeue k _ [u] h
        · simp [Outcome.state, hws]
        · intro v hv
          have hne : v ≠ u := by simpa using hv
          simp [Outcome.state, thread_unblock_pc, Function.update, hne]
        · simp [Outcome.state]
  · -- w_acquire
    simp only [step, w_lock_acquire, w_lock_acquire_loop]
    split
    · apply waitersBlocked_enqueue k _ t h hcur
      · simp [Outcome.state, thread_block]
      · intro u hu; simp [Outcome.state, thread_block, Function.update, hu]
      · intro u hu; simp [Outcome.state, thread_block, Function.update, hu]
      · simp [Outcome.state, thread_block]
    · apply waitersBlocked_update k _ t h hcur
      · simp [Outcome.state]
      · intro u hu; simp [Outcome.state, Function.update, hu]
      · intro u hu; simp [Outcome.state, Function.update, hu]
  · -- w_release
    simp only [step, w_lock_release]
    split
    · obtain ⟨p, h1, _, h3, _, _⟩ := w_lock_release_loop_spec k.l.waiters
        { k with l := { k.l with w_holder := none } } false
      apply waitersBlocked_dequeue k _ p h
      · exact h1
      · exact h3
      · exact w_lock_release_loop_waits_write _ _ _
    · exact h
  · -- resume
    simp only [step, resume] at hnp ⊢
    cases hp : k.pc t with
    | idle =>
      simp only [hp]
      exact h
    | suspended w wk =>
      cases w
      · by_cases hc : k.l.w_holder.isSome = true
        · simp [hp, r_lock_acquire_loop, hc, Outcome.isPanic] at hnp
        · simp only [hp, r_lock_acquire_loop, hc, if_false, Bool.false_eq_true]
          apply waitersBlocked_update k _ t h hcur
          · simp [Outcome.state]
          · intro u hu; simp [Outcome.state, Function.update, hu]
          · intro u hu; simp [Outcome.state]
      · by_cases hc : (k.l.w_holder.isSome || k.l.level != 0) = true
        · simp [hp, w_lock_acquire_loop, hc, Outcome.isPanic] at hnp
        · simp only [hp, w_lock_acquire_loop, hc, if_false, Bool.false_eq_true]
          apply waitersBlocked_update k _ t h hcur
          · simp [Outcome.state]
          · intro u hu; simp [Outcome.state, Function.update, hu]
          · intro u hu; simp [Outcome.state]

end GioSynch

namespace GioSynch

/-- Reachable states satisfy `WaitersBlocked`. -/
theorem waitersBlocked_of_reachable (k : Kernel) (h : Reachable k) : WaitersBlocked k := by
  induction h with
  | init => exact ⟨List.nodup_nil, by intro t ht; simp [Kernel.init, rw_lock_init] at ht⟩
  | step k e _ hen hnp ih => exact waitersBlocked_step k e ih hen hnp

/-- The states of the batch-wake scenario are reachable. -/
theorem reachable_k_batch : Reachable k_batch :=
  Reachable.step _ ⟨4, Op.r_acquire⟩
    (Reachable.step _ ⟨3, Op.w_acquire⟩
      (Reachable.step _ ⟨2, Op.r_acquire⟩
        (Reachable.step _ ⟨1, Op.r_acquire⟩
          (Reachable.step _ ⟨0, Op.w_acquire⟩ Reachable.init rfl rfl) rfl rfl) rfl rfl)
      rfl rfl) rfl rfl

/-- The state after the release of the batch-wake scenario is reachable. -/
theorem reachable_k_woken : Reachable k_woken :=
  Reachable.step _ ⟨0, Op.w_release⟩ reachable_k_batch rfl rfl

/-- C15 (waiters uniqueness).  In every state reachable from `rw_lock_init`,
no thread occurs twice in `waiters`, and every thread in `waiters` sits in the
`thread_block ()` of the loop of `r_lock_acquire` or of `w_lock_acquire`,
according to its `waits_write`, and has not been unblocked. -/
theorem waiters_unique_and_blocked (k : Kernel) (h : Reachable k) :
    k.l.waiters.Nodup ∧ (∀ t, k.l.waiters.count t ≤ 1) ∧
    ∀ t ∈ k.l.waiters, k.pc t = Pc.suspended (k.waits_write t) false :=
  ⟨(waitersBlocked_of_reachable k h).1,
   fun t => List.nodup_iff_count_le_one.1 (waitersBlocked_of_reachable k h).1 t,
   (waitersBlocked_of_reachable k h).2⟩

/-- C15 at the queue `[1, 2, 3, 4]` behind the writer `0`. -/
theorem waiters_unique_and_blocked_witness :
    Reachable k_batch ∧ k_batch.l.waiters = [1, 2, 3, 4] ∧
    (k_batch.l.waiters.Nodup ∧ (∀ t, k_batch.l.waiters.count t ≤ 1) ∧
     ∀ t ∈ k_batch.l.waiters, k_batch.pc t = Pc.suspended (k_batch.waits_write t) false) :=
  ⟨reachable_k_batch, by decide, waiters_unique_and_blocked k_batch reachable_k_batch⟩

/-- After an enabled event that fails no `ASSERT`, no waiter is stranded. -/
theorem noStranded_step (k : Kernel) (e : Event) (h : WaitersBlocked k)
    (hen : enabled k e = true) (hnp : (step k e).isPanic = false) :
    NoStranded (step k e).state := by
  obtain ⟨t, op⟩ := e
  cases op
  · -- r_acquire
    simp only [step, r_lock_acquire, r_lock_acquire_loop]
    by_cases hc : k.l.w_holder.isSome = true
    · simp only [hc, if_true]
      intro _
      left
      cases hw : k.l.w_holder with
      | none => simp [hw] at hc
      | some w => simp [Outcome.state, thread_block, hw]
    · simp only [hc, if_false, Bool.false_eq_true]
      intro _
      right; left
      simp [Outcome.state]
  · -- r_release
    simp only [step] at hnp ⊢
    rcases r_lock_release_cases k t with ⟨_, hr⟩ | ⟨_, hz, hr⟩ | ⟨_, u, rest, hws, hc⟩
    · rw [hr] at hnp; simp [Outcome.isPanic] at hnp
    · rw [hr]
      intro hne
      rcases hz with hz | hz
      · right; left
        simp only [Outcome.state]
        omega
      · exact absurd hz hne
    · rcases hc with ⟨_, hr⟩ | ⟨_, _, hr⟩ | ⟨_, _, hr⟩
      · rw [hr] at hnp; simp [Outcome.isPanic] at hnp
      · rw [hr] at hnp; simp [Outcome.isPanic] at hnp
      · rw [hr]
        intro _
        right; right
        have hu := h.2 u (by rw [hws]; exact List.mem_cons_self _ _)
        refine ⟨u, k.waits_write u, ?_⟩
        simp [Outcome.state, thread_unblock_pc, hu, Pc.wake]
  · -- w_acquire
    simp only [step, w_lock_acquire, w_lock_acquire_loop]
    by_cases hc : (k.l.w_holder.isSome || k.l.level != 0) = true
    · simp only [hc, if_true]
      intro _
      simp only [Outcome.state, thread_block]
      cases hw : k.l.w_holder with
      | some w => left; simp
      | none =>
        right; left
        simp [hw] at hc
        show 0 < k.l.level
        omega
    · simp only [hc, if_false, Bool.false_eq_true]
      intro _
      left
      simp [Outcome.state]
  · -- w_release
    simp only [step, w_lock_release] at hnp ⊢
    by_cases hh : k.l.w_holder = some t
    · simp only [hh, if_true, Outcome.state]
      obtain ⟨p, h1, _, _, h4, h5⟩ := w_lock_release_loop_spec k.l.waiters
        { k with l := { k.l with w_holder := none } } false
      intro hne
      have hws : k.l.waiters ≠ [] := by
        intro he
        apply hne
        simp [he, w_lock_release_loop]
      have hp := h5 rfl hws
      obtain ⟨u, hu⟩ := List.exists_mem_of_ne_nil p hp
      have hmem : u ∈ k.l.waiters := by
        have : u ∈ p ++ (w_lock_release_loop { k with l := { k.l with w_holder := none } }
            k.l.waiters false).l.waiters := List.mem_append_left _ hu
        rw [← h1] at this
        exact this
      right; right
      refine ⟨u, k.waits_write u, ?_⟩
      rw [h4 u hu]
      simp only
      rw [h.2 u hmem]
      rfl
    · simp [hh, Outcome.isPanic] at hnp
  · -- resume
    simp only [step, resume] at hnp ⊢
    rcases enabled_pc k ⟨t, Op.resume⟩ hen with ⟨h1, _⟩ | ⟨_, w, hp⟩
    · exact absurd rfl h1
    · simp only at hp
      cases w
      · by_cases hc : k.l.w_holder.isSome = true
        · simp [hp, r_lock_acquire_loop, hc, Outcome.isPanic] at hnp
        · simp only [hp, r_lock_acquire_loop, hc, if_false, Bool.false_eq_true]
          intro _
          right; left
          simp [Outcome.state]
      · by_cases hc : (k.l.w_holder.isSome || k.l.level != 0) = true
        · simp [hp, w_lock_acquire_loop, hc, Outcome.isPanic] at hnp
        · simp only [hp, w_lock_acquire_loop, hc, if_false, Bool.false_eq_true]
          intro _
          left
          simp [Outcome.state]

/-- Reachable states strand no waiter. -/
theorem noStranded_of_reachable (k : Kernel) (h : Reachable k) : NoStranded k := by
  cases h with
  | init => intro hne; simp [Kernel.init, rw_lock_init] at hne
  | step k0 e h0 hen hnp =>
    exact noStranded_step k0 e (waitersBlocked_of_reachable k0 h0) hen hnp

/-- C20 (no stranded waiters).  In every state reachable from `rw_lock_init`
without a failed `ASSERT`, a non-empty `waiters` comes with a held lock
(`w_holder != NULL` or `level > 0`) or with a thread that a release has
unblocked and that has not run yet.  Every `r_lock_release` that fails no
`ASSERT` and brings `level` to `0`, and every `w_lock_release` that fails no
`ASSERT`, leaves `waiters` empty or calls `thread_unblock` on at least one
waiter. -/
theorem no_stranded_waiters (k : Kernel) (h : Reachable k) :
    (k.l.waiters ≠ [] →
      k.l.w_holder ≠ none ∨ 0 < k.l.level ∨ ∃ t w, k.pc t = Pc.suspended w true) ∧
    (∀ cur, (r_lock_release k cur).isPanic = false →
      (r_lock_release k cur).state.l.level = 0 →
      (r_lock_release k cur).state.l.waiters = [] ∨
      ∃ t, t ∈ k.l.waiters ∧ (r_lock_release k cur).state.unblocked = k.unblocked ++ [t] ∧
        (r_lock_release k cur).state.pc t = Pc.suspended (k.waits_write t) true) ∧
    (∀ cur, (w_lock_release k cur).isPanic = false →
      (w_lock_release k cur).state.l.waiters = [] ∨
      ∃ t p, t ∈ k.l.waiters ∧ (w_lock_release k cur).state.unblocked = k.unblocked ++ t :: p ∧
        (w_lock_release k cur).state.pc t = Pc.suspended (k.waits_write t) true) := by
  have hwb := waitersBlocked_of_reachable k h
  refine ⟨noStranded_of_reachable k h, ?_, ?_⟩
  · intro cur hnp hz
    rcases r_lock_release_cases k cur with ⟨_, hr⟩ | ⟨_, hc, hr⟩ | ⟨_, u, rest, hws, hc⟩
    · rw [hr] at hnp; simp [Outcome.isPanic] at hnp
    · rw [hr] at hz ⊢
      simp only [Outcome.state] at hz ⊢
      rcases hc with hc | hc
      · exact absurd hz hc
      · exact Or.inl hc
    · rcases hc with ⟨_, hr⟩ | ⟨_, _, hr⟩ | ⟨_, _, hr⟩
      · rw [hr] at hnp; simp [Outcome.isPanic] at hnp
      · rw [hr] at hnp; simp [Outcome.isPanic] at hnp
      · right
        have hu := hwb.2 u (by rw [hws]; exact List.mem_cons_self _ _)
        refine ⟨u, by rw [hws]; exact List.mem_cons_self _ _, ?_, ?_⟩
        · rw [hr]; rfl
        · rw [hr]
          simp [Outcome.state, thread_unblock_pc, hu, Pc.wake]
  · intro cur hnp
    by_cases hh : k.l.w_holder = some cur
    · obtain ⟨p, h1, h2, _, h4, h5⟩ := w_lock_release_loop_spec k.l.waiters
        { k with l := { k.l with w_holder := none } } false
      simp only [w_lock_release, hh, if_true, Outcome.state]
      by_cases hws : k.l.waiters = []
      · left
        simp [hws, w_lock_release_loop]
      · right
        have hp := h5 rfl hws
        cases p with
        | nil => exact absurd rfl hp
        | cons u p1 =>
          have hmem : u ∈ k.l.waiters := by
            rw [h1]; simp
          refine ⟨u, p1, hmem, h2, ?_⟩
          rw [h4 u (List.mem_cons_self _ _)]
          simp only
          rw [hwb.2 u hmem]
          rfl
    · simp [w_lock_release, hh, Outcome.isPanic] at hnp

/-- C20 at the state after the release of the batch-wake scenario: `3` and `4`
wait, the lock is free, and the woken reader `1` has not run yet. -/
theorem no_stranded_waiters_witness :
    Reachable k_woken ∧ k_woken.l = ⟨none, 0, [3, 4]⟩ ∧
    k_woken.pc 1 = Pc.suspended false true ∧
    (k_woken.l.waiters ≠ [] →
      k_woken.l.w_holder ≠ none ∨ 0 < k_woken.l.level ∨
        ∃ t w, k_woken.pc t = Pc.suspended w true) ∧
    Reachable k_batch ∧ (w_lock_release k_batch 0).isPanic = false ∧
    ((w_lock_release k_batch 0).state.l.waiters = [] ∨
      ∃ t p, t ∈ k_batch.l.waiters ∧
        (w_lock_release k_batch 0).state.unblocked = k_batch.unblocked ++ t :: p ∧
        (w_lock_release k_batch 0).state.pc t = Pc.suspended (k_batch.waits_write t) true) :=
  ⟨reachable_k_woken, by decide, by decide, (no_stranded_waiters k_woken reachable_k_woken).1,
   reachable_k_batch, by decide,
   (no_stranded_waiters k_batch reachable_k_batch).2.2 0 (by decide)⟩

end GioSynch

namespace GioSynch

/-- An event that fails no `ASSERT` unblocks a prefix of the queue and appends
at most its own thread: the log of wake-ups followed by the queue only grows
at the back. -/
theorem step_fifo (k : Kernel) (e : Event) (hnp : (step k e).isPanic = false) :
    ∃ woken arrivals, (step k e).state.unblocked = k.unblocked ++ woken ∧
      woken ++ (step k e).state.l.waiters = k.l.waiters ++ arrivals := by
  obtain ⟨t, op⟩ := e
  cases op
  · simp only [step, r_lock_acquire, r_lock_acquire_loop]
    by_cases hc : k.l.w_holder.isSome = true
    · exact ⟨[], [t], by simp [hc, Outcome.state, thread_block],
        by simp [hc, Outcome.state, thread_block]⟩
    · exact ⟨[], [], by simp [hc, Outcome.state], by simp [hc, Outcome.state]⟩
  · simp only [step] at hnp ⊢
    rcases r_lock_release_cases k t with ⟨_, hr⟩ | ⟨_, _, hr⟩ | ⟨_, u, rest, hws, hc⟩
    · rw [hr] at hnp; simp [Outcome.isPanic] at hnp
    · rw [hr]; exact ⟨[], [], by simp [Outcome.state], by simp [Outcome.state]⟩
    · rcases hc with ⟨_, hr⟩ | ⟨_, _, hr⟩ | ⟨_, _, hr⟩
      · rw [hr] at hnp; simp [Outcome.isPanic] at hnp
      · rw [hr] at hnp; simp [Outcome.isPanic] at hnp
      · rw [hr]
        exact ⟨[u], [], by simp [Outcome.state], by simp [Outcome.state, hws]⟩
  · simp only [step, w_lock_acquire, w_lock_acquire_loop]
    by_cases hc : (k.l.w_holder.isSome || k.l.level != 0) = true
    · exact ⟨[], [t], by simp only [hc, if_true, Outcome.state, thread_block]; simp,
        by simp only [hc, if_true, Outcome.state, thread_block]; simp⟩
    · exact ⟨[], [], by simp only [hc, Outcome.state]; simp,
        by simp only [hc, Outcome.state]; simp⟩
  · simp only [step, w_lock_release] at hnp ⊢
    by_cases hh : k.l.w_holder = some t
    · obtain ⟨p, h1, h2, _, _, _⟩ := w_lock_release_loop_spec k.l.waiters
        { k with l := { k.l with w_holder := none } } false
      simp only [hh, if_true, Outcome.state]
      exact ⟨p, [], h2, by rw [List.append_nil]; exact h1.symm⟩
    · simp [hh, Outcome.isPanic] at hnp
  · simp only [step, resume] at hnp ⊢
    cases hp : k.pc t with
    | idle => exact ⟨[], [], by simp [Outcome.state], by simp [Outcome.state]⟩
    | suspended w wk =>
      cases w
      · by_cases hc : k.l.w_holder.isSome = true
        · simp [hp, r_lock_acquire_loop, hc, Outcome.isPanic] at hnp
        · exact ⟨[], [], by simp [r_lock_acquire_loop, hc, Outcome.state],
            by simp [r_lock_acquire_loop, hc, Outcome.state]⟩
      · by_cases hc : (k.l.w_holder.isSome || k.l.level != 0) = true
        · simp [hp, w_lock_acquire_loop, hc, Outcome.isPanic] at hnp
        · exact ⟨[], [], by simp only [w_lock_acquire_loop, hc, Outcome.state]; simp,
            by simp only [w_lock_acquire_loop, hc, Outcome.state]; simp⟩

/-- An event that fails an `ASSERT` has unblocked nobody. -/
theorem step_panic_unblocked (k : Kernel) (e : Event) (hp : (step k e).isPanic = true) :
    (step k e).state.unblocked = k.unblocked := by
  obtain ⟨t, op⟩ := e
  cases op
  · simp only [step, r_lock_acquire, r_lock_acquire_loop]
    by_cases hc : k.l.w_holder.isSome = true <;> simp [hc, Outcome.state, thread_block]
  · simp only [step] at hp ⊢
    rcases r_lock_release_cases k t with ⟨_, hr⟩ | ⟨_, _, hr⟩ | ⟨_, u, rest, hws, hc⟩
    · rw [hr]; rfl
    · rw [hr]; rfl
    · rcases hc with ⟨_, hr⟩ | ⟨_, _, hr⟩ | ⟨_, _, hr⟩
      · rw [hr]; rfl
      · rw [hr]; rfl
      · rw [hr] at hp; simp [Outcome.isPanic] at hp
  · simp only [step, w_lock_acquire, w_lock_acquire_loop]
    by_cases hc : (k.l.w_holder.isSome || k.l.level != 0) = true
    · simp only [hc, if_true, Outcome.state, thread_block]
    · simp only [hc, Outcome.state]; simp
  · simp only [step, w_lock_release] at hp ⊢
    by_cases hh : k.l.w_holder = some t
    · simp [hh, Outcome.isPanic] at hp
    · simp [hh, Outcome.state]
  · simp only [step, resume] at hp ⊢
    cases hpc : k.pc t with
    | idle => simp [Outcome.state]
    | suspended w wk =>
      cases w
      · by_cases hc : k.l.w_holder.isSome = true
        · simp [r_lock_acquire_loop, hc, Outcome.state]
        · simp [r_lock_acquire_loop, hc, Outcome.state]
      · by_cases hc : (k.l.w_holder.isSome || k.l.level != 0) = true
        · simp only [w_lock_acquire_loop, hc, Outcome.state]; simp
        · simp only [w_lock_acquire_loop, hc, Outcome.state]; simp

/-- Nothing runs after a failed `ASSERT`. -/
theorem runFrom_panic (k : Kernel) (es : List Event) :
    runFrom (Outcome.panic k) es = some (Outcome.panic k) := by
  cases es <;> rfl

/-- Along a schedule the threads are unblocked in the order of the queue: the
wake-ups of the schedule form a prefix of the queue at its start followed by
the threads that queued during it. -/
theorem runFrom_fifo (es : List Event) :
    ∀ (o0 o : Outcome), runFrom o0 es = some o →
      ∃ woken arrivals, o.state.unblocked = o0.state.unblocked ++ woken ∧
        woken <+: o0.state.l.waiters ++ arrivals ∧
        (o.isPanic = false → woken ++ o.state.l.waiters = o0.state.l.waiters ++ arrivals) := by
  induction es with
  | nil =>
    intro o0 o h
    simp only [runFrom, Option.some.injEq] at h
    subst h
    exact ⟨[], [], by simp, by simp, by simp⟩
  | cons e rest ih =>
    intro o0 o h
    have key : ∀ k : Kernel, o0.state = k →
        (if enabled k e = true then runFrom (step k e) rest else none) = some o →
        ∃ woken arrivals, o.state.unblocked = o0.state.unblocked ++ woken ∧
          woken <+: o0.state.l.waiters ++ arrivals ∧
          (o.isPanic = false → woken ++ o.state.l.waiters = o0.state.l.waiters ++ arrivals) := by
      intro k hk h
      rw [hk]
      by_cases hen : enabled k e = true
      · simp only [hen, if_true] at h
        by_cases hp : (step k e).isPanic = true
        · have hst : step k e = Outcome.panic (step k e).state := by
            cases hs : step k e <;> simp [hs, Outcome.isPanic, Outcome.state] at hp ⊢
          rw [hst, runFrom_panic] at h
          have ho : o = Outcome.panic (step k e).state := (Option.some.inj h).symm
          refine ⟨[], [], ?_, by simp, ?_⟩
          · rw [ho]; simp only [Outcome.state, List.append_nil]
            exact step_panic_unblocked k e hp
          · rw [ho]; simp [Outcome.isPanic]
        · simp only [Bool.not_eq_true] at hp
          obtain ⟨w1, a1, h1, h2⟩ := step_fifo k e hp
          obtain ⟨w2, a2, h3, h4, h5⟩ := ih (step k e) o h
          refine ⟨w1 ++ w2, a1 ++ a2, ?_, ?_, ?_⟩
          · rw [h3, h1, List.append_assoc]
          · have : w1 ++ w2 <+: w1 ++ ((step k e).state.l.waiters ++ a2) :=
              (List.prefix_append_right_inj w1).2 h4
            rw [← List.append_assoc, h2, List.append_assoc] at this
            exact this
          · intro hnp
            have := h5 hnp
            rw [List.append_assoc, this, ← List.append_assoc, h2]
            simp [List.append_assoc]
      · simp [hen] at h
    cases o0 with
    | panic k =>
      rw [runFrom_panic] at h
      have ho : o = Outcome.panic k := (Option.some.inj h).symm
      exact ⟨[], [], by rw [ho]; simp, by simp, by rw [ho]; simp [Outcome.isPanic]⟩
    | returned k => exact key k rfl h
    | blocked k => exact key k rfl h

/-- C13 (FIFO among writers).  `r_lock_acquire` and `w_lock_acquire` leave
`waiters` as it is or append their caller at the back, and unblock nobody;
`r_lock_release` and `w_lock_release` remove a prefix of `waiters`, possibly
empty, keep the rest in its order, and unblock exactly the threads removed, in
queue order, unless an `ASSERT` fails, and then nobody.  Hence along every
schedule from a state `k` the threads unblocked are a prefix of `waiters`
followed by the later arrivals: for `W1` ahead of `W2` in `waiters`, either the
wake-ups stop before `W1` or between the two, or they start with the queue up
to `W2`, in which `W1` comes first. -/
theorem writers_fifo (k : Kernel) (es : List Event) (o : Outcome)
    (h : run k es = some o) :
    (∀ cur, ((r_lock_acquire k cur).state.l.waiters = k.l.waiters ∨
        (r_lock_acquire k cur).state.l.waiters = k.l.waiters ++ [cur]) ∧
      (r_lock_acquire k cur).state.unblocked = k.unblocked) ∧
    (∀ cur, ((w_lock_acquire k cur).state.l.waiters = k.l.waiters ∨
        (w_lock_acquire k cur).state.l.waiters = k.l.waiters ++ [cur]) ∧
      (w_lock_acquire k cur).state.unblocked = k.unblocked) ∧
    (∀ cur, ∃ p, k.l.waiters = p ++ (r_lock_release k cur).state.l.waiters ∧
      (r_lock_release k cur).state.unblocked =
        k.unblocked ++ (if (r_lock_release k cur).isPanic then [] else p)) ∧
    (∀ cur, ∃ p, k.l.waiters = p ++ (w_lock_release k cur).state.l.waiters ∧
      (w_lock_release k cur).state.unblocked =
        k.unblocked ++ (if (w_lock_release k cur).isPanic then [] else p)) ∧
    (∃ woken arrivals, o.state.unblocked = k.unblocked ++ woken ∧
      woken <+: k.l.waiters ++ arrivals ∧
      (o.isPanic = false → woken ++ o.state.l.waiters = k.l.waiters ++ arrivals) ∧
      ∀ (a b c : List Tid) (W1 W2 : Tid), k.l.waiters = a ++ W1 :: (b ++ W2 :: c) →
        woken <+: a ++ W1 :: b ∨ a ++ W1 :: (b ++ [W2]) <+: woken) := by
  refine ⟨?_, ?_, ?_, ?_, ?_⟩
  · intro cur
    simp only [r_lock_acquire, r_lock_acquire_loop]
    by_cases hc : k.l.w_holder.isSome = true <;> simp [hc, Outcome.state, thread_block]
  · intro cur
    simp only [w_lock_acquire, w_lock_acquire_loop]
    by_cases hc : (k.l.w_holder.isSome || k.l.level != 0) = true
    · simp only [hc, if_true, Outcome.state, thread_block]; simp
    · simp only [hc, Outcome.state]; simp
  · intro cur
    rcases r_lock_release_cases k cur with ⟨_, hr⟩ | ⟨_, _, hr⟩ | ⟨_, u, rest, hws, hc⟩
    · rw [hr]; exact ⟨[], by simp [Outcome.state], by simp [Outcome.state, Outcome.isPanic]⟩
    · rw [hr]; exact ⟨[], by simp [Outcome.state], by simp [Outcome.state, Outcome.isPanic]⟩
    · rcases hc with ⟨_, hr⟩ | ⟨_, _, hr⟩ | ⟨_, _, hr⟩
      · rw [hr]; exact ⟨[], by simp [Outcome.state], by simp [Outcome.state, Outcome.isPanic]⟩
      · rw [hr]
        exact ⟨[u], by simp [Outcome.state, hws], by simp [Outcome.state, Outcome.isPanic]⟩
      · rw [hr]
        exact ⟨[u], by simp [Outcome.state, hws], by simp [Outcome.state, Outcome.isPanic]⟩
  · intro cur
    by_cases hh : k.l.w_holder = some cur
    · obtain ⟨p, h1, h2, _, _, _⟩ := w_lock_release_loop_spec k.l.waiters
        { k with l := { k.l with w_holder := none } } false
      refine ⟨p, ?_, ?_⟩
      · simp only [w_lock_release, hh, if_true, Outcome.state]; exact h1
      · simp only [w_lock_release, hh, if_true, Outcome.state, Outcome.isPanic]
        simpa using h2
    · exact ⟨[], by simp [w_lock_release, hh, Outcome.state],
        by simp [w_lock_release, hh, Outcome.state, Outcome.isPanic]⟩
  · obtain ⟨woken, arrivals, h1, h2, h3⟩ := runFrom_fifo es (Outcome.returned k) o h
    refine ⟨woken, arrivals, h1, h2, h3, ?_⟩
    intro a b c W1 W2 hw
    simp only [Outcome.state] at h2
    have hL1 : a ++ W1 :: b <+: k.l.waiters ++ arrivals := by
      rw [hw]
      exact ⟨W2 :: c ++ arrivals, by simp⟩
    have hL2 : a ++ W1 :: (b ++ [W2]) <+: k.l.waiters ++ arrivals := by
      rw [hw]
      exact ⟨c ++ arrivals, by simp⟩
    by_cases hlen : woken.length ≤ (a ++ W1 :: b).length
    · exact Or.inl (List.prefix_of_prefix_length_le h2 hL1 hlen)
    · right
      apply List.prefix_of_prefix_length_le hL2 h2
      simp only [List.length_append, List.length_cons, List.length_nil] at hlen ⊢
      omega

/-- C13 at the queue `[W1, W2] = [1, 2]` behind the writer `0`: the schedule
`sched_handover` unblocks `1` and then `2`. -/
theorem writers_fifo_witness :
    k_two_writers.l = ⟨some 0, 0, [1, 2]⟩ ∧
    (run k_two_writers sched_handover).map (fun o => (o.isPanic, o.state.l, o.state.unblocked)) =
      some (false, ⟨none, 0, []⟩, [1, 2]) ∧
    (∃ o, run k_two_writers sched_handover = some o ∧
      ∃ woken arrivals, o.state.unblocked = k_two_writers.unblocked ++ woken ∧
        woken <+: k_two_writers.l.waiters ++ arrivals ∧
        (o.isPanic = false →
          woken ++ o.state.l.waiters = k_two_writers.l.waiters ++ arrivals) ∧
        ∀ (a b c : List Tid) (W1 W2 : Tid),
          k_two_writers.l.waiters = a ++ W1 :: (b ++ W2 :: c) →
          woken <+: a ++ W1 :: b ∨ a ++ W1 :: (b ++ [W2]) <+: woken) := by
  refine ⟨by decide, by decide, ?_⟩
  cases hr : run k_two_writers sched_handover with
  | none =>
    have hsome : (run k_two_writers sched_handover).isSome = true := by decide
    rw [hr] at hsome
    exact absurd hsome (by decide)
  | some o => exact ⟨o, rfl, (writers_fifo k_two_writers sched_handover o hr).2.2.2.2⟩

end GioSynch

namespace Timer

/-- The bitwise `and` with `-1`, all bits set, is the identity. -/
theorem land_neg_one (x : Int) : Int.land x (-1) = x := by
  cases x with
  | ofNat m =>
    show Int.land (Int.ofNat m) (Int.negSucc 0) = _
    simp [Int.land, Nat.ldiff]
  | negSucc m =>
    show Int.land (Int.negSucc m) (Int.negSucc 0) = _
    simp [Int.land]

/-- The tick after a non-negative tick of `int64_t` is not `0`, also when the
increment wraps round. -/
theorem wrap64_succ_ne_zero (t : Int) (h0 : 0 ≤ t) (h : InInt64 t) : wrap64 (t + 1) ≠ 0 := by
  obtain ⟨_, h2⟩ := h
  unfold wrap64
  omega

/-- Only the interrupt handler writes `ticks`. -/
theorem apply_ticks (F : Int) (L : Nat) (s : TimerState) (op : TimerOp) :
    (TimerOp.apply F L s op).ticks =
      if op = TimerOp.interrupt then wrap64 (s.ticks + 1) else s.ticks := by
  cases op with
  | interrupt => simp [TimerOp.apply, timer_interrupt]
  | sleep cur n =>
    simp only [TimerOp.apply]
    split <;> simp
  | pass => simp [TimerOp.apply]
  | delay num denom =>
    simp only [TimerOp.apply, real_time_delay]
    split
    · rename_i r hr
      split at hr
      · simp only [Option.some.injEq] at hr
        rw [← hr]; simp
      · simp at hr
    · simp

/-- Absent overflow, a sequence of operations advances `ticks` by the number
of timer interrupts in it. -/
theorem applyAll_ticks (F : Int) (L : Nat) (ops : List TimerOp) :
    ∀ s : TimerState, -(2 ^ 63) ≤ s.ticks → s.ticks + ops.length < 2 ^ 63 →
      (applyAll F L s ops).ticks = s.ticks + ops.count TimerOp.interrupt := by
  induction ops with
  | nil => intro s _ _; simp [applyAll]
  | cons op rest ih =>
    intro s h1 h2
    simp only [List.length_cons, Nat.cast_add, Nat.cast_one] at h2
    have ht := apply_ticks F L s op
    by_cases hop : op = TimerOp.interrupt
    · subst hop
      rw [if_pos rfl, wrap64_of_inInt64 _ ⟨by omega, by omega⟩] at ht
      have := ih (TimerOp.apply F L s TimerOp.interrupt) (by rw [ht]; omega) (by rw [ht]; omega)
      simp only [applyAll, this, ht, List.count_cons_self, Nat.cast_add, Nat.cast_one]
      omega
    · rw [if_neg hop] at ht
      have := ih (TimerOp.apply F L s op) (by rw [ht]; omega) (by rw [ht]; omega)
      have hne : (op == TimerOp.interrupt) = false := by simpa using hop
      simp only [applyAll, this, ht, List.count_cons, hne]
      simp

/-- C14 (elapsed time).  `timer_elapsed (then)` is `ticks - then` in
`int64_t`, so it is `0` for `then = timer_ticks ()` read from the same globals.
`timer_interrupt` adds `1` to `ticks` (in `int64_t`) and no other operation
changes `ticks`.  Hence, absent overflow of the counter and of the
subtraction, a sequence of operations adds to `timer_elapsed (then)` the number
of timer interrupts in it, so that the value never decreases. -/
theorem timer_elapsed_monotone (TIMER_FREQ : Int) (loops_per_tick : Nat) (s : TimerState)
    (thn : Int) (ops : List TimerOp) (h1 : -(2 ^ 63) ≤ s.ticks)
    (h2 : s.ticks + ops.length < 2 ^ 63) (h3 : InInt64 (s.ticks - thn))
    (h4 : InInt64 (s.ticks + ops.length - thn)) :
    timer_elapsed s thn = s.ticks - thn ∧
    timer_elapsed s (timer_ticks s) = 0 ∧
    (timer_interrupt s).1.ticks = wrap64 (s.ticks + 1) ∧
    (InInt64 (s.ticks + 1) → InInt64 (s.ticks + 1 - thn) →
      (timer_interrupt s).1.ticks = s.ticks + 1 ∧
      timer_elapsed (timer_interrupt s).1 thn = timer_elapsed s thn + 1) ∧
    (∀ op, op ≠ TimerOp.interrupt →
      (TimerOp.apply TIMER_FREQ loops_per_tick s op).ticks = s.ticks) ∧
    timer_elapsed (applyAll TIMER_FREQ loops_per_tick s ops) thn =
      timer_elapsed s thn + ops.count TimerOp.interrupt ∧
    timer_elapsed s thn ≤ timer_elapsed (applyAll TIMER_FREQ loops_per_tick s ops) thn := by
  have hlen : (0 : Int) ≤ ops.length := Int.natCast_nonneg _
  have hcnt : ((ops.count TimerOp.interrupt : Nat) : Int) ≤ ops.length := by
    exact_mod_cast List.count_le_length TimerOp.interrupt ops
  have hcnt0 : (0 : Int) ≤ (ops.count TimerOp.interrupt : Nat) := Int.natCast_nonneg _
  obtain ⟨h3a, h3b⟩ := h3
  obtain ⟨h4a, h4b⟩ := h4
  have e1 : timer_elapsed s thn = s.ticks - thn := by
    unfold timer_elapsed timer_ticks
    exact wrap64_of_inInt64 _ ⟨h3a, h3b⟩
  have e2 := applyAll_ticks TIMER_FREQ loops_per_tick ops s h1 h2
  have e3 : timer_elapsed (applyAll TIMER_FREQ loops_per_tick s ops) thn =
      s.ticks + ops.count TimerOp.interrupt - thn := by
    unfold timer_elapsed timer_ticks
    rw [e2]
    exact wrap64_of_inInt64 _ ⟨by omega, by omega⟩
  refine ⟨e1, ?_, rfl, ?_, ?_, ?_, ?_⟩
  · unfold timer_elapsed timer_ticks
    rw [sub_self]; decide
  · intro h5 h6
    have e4 : (timer_interrupt s).1.ticks = s.ticks + 1 := by
      simp only [timer_interrupt]
      exact wrap64_of_inInt64 _ h5
    refine ⟨e4, ?_⟩
    rw [e1]
    unfold timer_elapsed timer_ticks
    rw [e4]
    rw [wrap64_of_inInt64 _ h6]
    omega
  · intro op hop
    rw [apply_ticks, if_neg hop]
  · rw [e3, e1]; omega
  · rw [e3, e1]; omega

/-- C14 at tick `7`, for `then = 5` and two interrupts among four operations:
the elapsed time goes from `2` to `4`. -/
theorem timer_elapsed_monotone_witness :
    InInt64 (7 - 5) ∧ InInt64 (7 + 4 - 5) ∧
    timer_elapsed ⟨7, []⟩ 5 = 2 ∧
    timer_elapsed (applyAll 100 1024 ⟨7, []⟩
      [TimerOp.interrupt, TimerOp.sleep 3 4, TimerOp.interrupt, TimerOp.pass]) 5 = 4 ∧
    timer_elapsed ⟨7, []⟩ 5 ≤ timer_elapsed (applyAll 100 1024 ⟨7, []⟩
      [TimerOp.interrupt, TimerOp.sleep 3 4, TimerOp.interrupt, TimerOp.pass]) 5 :=
  ⟨by decide, by decide, by decide, by decide,
   (timer_elapsed_monotone 100 1024 ⟨7, []⟩ 5
      [TimerOp.interrupt, TimerOp.sleep 3 4, TimerOp.interrupt, TimerOp.pass]
      (by decide) (by decide) (by decide) (by decide)).2.2.2.2.2.2⟩

/-- C19 (worker signalling policy).  `timer_interrupt` stores `ticks + 1` (in
`int64_t`) and calls `try_thread_unblock (background_thread)` exactly when the
new value `&` `SLEEP_APPROXIMATION` is not `0`, which, `SLEEP_APPROXIMATION`
being `-1`, is exactly when the new value is not `0`.  For every tick count
`t >= 0` before the interrupt the worker is therefore signalled, on odd and on
even ticks alike. -/
theorem timer_interrupt_signals (s : TimerState) :
    (timer_interrupt s).1.ticks = wrap64 (s.ticks + 1) ∧
    (timer_interrupt s).1.sleeping_threads_list = s.sleeping_threads_list ∧
    ((timer_interrupt s).2 = true ↔
      Int.land (timer_interrupt s).1.ticks SLEEP_APPROXIMATION ≠ 0) ∧
    ((timer_interrupt s).2 = true ↔ (timer_interrupt s).1.ticks ≠ 0) ∧
    (InInt64 (s.ticks + 1) → (timer_interrupt s).1.ticks = s.ticks + 1) ∧
    (0 ≤ s.ticks → InInt64 s.ticks → (timer_interrupt s).2 = true) := by
  refine ⟨rfl, rfl, ?_, ?_, ?_, ?_⟩
  · simp [timer_interrupt]
  · simp [timer_interrupt, SLEEP_APPROXIMATION, land_neg_one]
  · intro h
    exact wrap64_of_inInt64 _ h
  · intro h0 h
    simp only [timer_interrupt, SLEEP_APPROXIMATION, land_neg_one, decide_eq_true_eq]
    exact wrap64_succ_ne_zero _ h0 h

/-- C19 at the ticks `0` (new value `1`, odd) and `1` (new value `2`, even):
the worker is signalled at both. -/
theorem timer_interrupt_signals_witness :
    (0 : Int) ≤ 0 ∧ InInt64 0 ∧ (timer_interrupt ⟨0, []⟩).2 = true ∧
    (timer_interrupt ⟨0, []⟩).1.ticks = 1 ∧
    (0 : Int) ≤ 1 ∧ InInt64 1 ∧ (timer_interrupt ⟨1, []⟩).2 = true ∧
    (timer_interrupt ⟨1, []⟩).1.ticks = 2 :=
  ⟨by decide, by decide, (timer_interrupt_signals ⟨0, []⟩).2.2.2.2.2 (by decide) (by decide),
   by decide, by decide, by decide,
   (timer_interrupt_signals ⟨1, []⟩).2.2.2.2.2 (by decide) (by decide), by decide⟩

end Timer

namespace Timer

/-- C16 (enqueue preserves order and is stable).  On an ascending queue `q` of
entries built by `init_sleeping_thread`, the insertion of such an entry `e` by
`list_insert_ordered` with `sleeping_thread_less_func`, which is what
`timer_sleep` performs for its own entry, fails no `ASSERT` and splits `q` into
`a ++ b` with the result `a ++ e :: b`: the old entries keep their order, those
of `a` are due no later than `e`, those of `b` strictly later, the result is
ascending and holds exactly the old entries and `e`. -/
theorem timer_sleep_insert_sorted_stable (e : sleeping_thread) (q : List sleeping_thread)
    (he : e.MAGIC = SLEEPING_THREAD_MAGIC)
    (hv : ∀ x ∈ q, x.MAGIC = SLEEPING_THREAD_MAGIC)
    (hs : q.Pairwise (fun a b => a.wake_up_time ≤ b.wake_up_time)) :
    ∃ a b, q = a ++ b ∧
      list_insert_ordered e sleeping_thread_less_func q = some (a ++ e :: b) ∧
      (∀ x ∈ a, x.wake_up_time ≤ e.wake_up_time) ∧
      (∀ x ∈ b, e.wake_up_time < x.wake_up_time) ∧
      (a ++ e :: b).Pairwise (fun x y => x.wake_up_time ≤ y.wake_up_time) ∧
      (a ++ e :: b).Perm (e :: q) ∧
      (∀ (start n : Int) (cur : Tid), e = init_sleeping_thread (wrap64 (start + n)) cur →
        timer_sleep intr_level.INTR_ON start cur n q = some (a ++ e :: b)) := by
  have hs1 : q.Pairwise (fun a b => wakeLE a b = true) := by
    refine hs.imp ?_
    intro a b hab
    simpa [wakeLE] using hab
  have hins := insert_closed_form e he q hv
  have hsplit := List.takeWhile_append_dropWhile (fun x => wakeLE x e) q
  refine ⟨q.takeWhile (fun x => wakeLE x e), q.dropWhile (fun x => wakeLE x e),
    hsplit.symm, hins, ?_, lt_of_mem_dropWhile e q hs1, ?_, ?_, ?_⟩
  · intro x hx
    have : wakeLE x e = true := @List.mem_takeWhile_imp _ (fun x => wakeLE x e) _ _ hx
    simpa [wakeLE] using this
  · refine (pairwise_insert e q hs1).imp ?_
    intro a b hab
    simpa [wakeLE] using hab
  · have h1 : (q.takeWhile (fun x => wakeLE x e) ++ e :: q.dropWhile (fun x => wakeLE x e)).Perm
        (e :: (q.takeWhile (fun x => wakeLE x e) ++ q.dropWhile (fun x => wakeLE x e))) :=
      List.perm_middle
    rw [hsplit] at h1
    exact h1
  · intro start n cur hcur
    simp only [timer_sleep, if_true]
    rw [← hcur]
    exact hins

/-- C16 at the queue with the deadlines `2, 2, 5, 8`: the entry of thread `9`
with the deadline `5` goes behind the entry of thread `1` with the same
deadline and before the one due at `8`. -/
theorem timer_sleep_insert_sorted_stable_witness :
    (∀ x ∈ queue_2_2_5_8, x.MAGIC = SLEEPING_THREAD_MAGIC) ∧
    queue_2_2_5_8.Pairwise (fun a b => a.wake_up_time ≤ b.wake_up_time) ∧
    timer_sleep intr_level.INTR_ON 1 9 4 queue_2_2_5_8 =
      some [⟨2, 2, SLEEPING_THREAD_MAGIC⟩, ⟨4, 2, SLEEPING_THREAD_MAGIC⟩,
        ⟨1, 5, SLEEPING_THREAD_MAGIC⟩, ⟨9, 5, SLEEPING_THREAD_MAGIC⟩,
        ⟨3, 8, SLEEPING_THREAD_MAGIC⟩] ∧
    (∃ a b, queue_2_2_5_8 = a ++ b ∧
      list_insert_ordered (init_sleeping_thread (wrap64 (1 + 4)) 9) sleeping_thread_less_func
        queue_2_2_5_8 = some (a ++ init_sleeping_thread (wrap64 (1 + 4)) 9 :: b) ∧
      (∀ x ∈ a, x.wake_up_time ≤ (init_sleeping_thread (wrap64 (1 + 4)) 9).wake_up_time) ∧
      (∀ x ∈ b, (init_sleeping_thread (wrap64 (1 + 4)) 9).wake_up_time < x.wake_up_time) ∧
      (a ++ init_sleeping_thread (wrap64 (1 + 4)) 9 :: b).Pairwise
        (fun x y => x.wake_up_time ≤ y.wake_up_time) ∧
      (a ++ init_sleeping_thread (wrap64 (1 + 4)) 9 :: b).Perm
        (init_sleeping_thread (wrap64 (1 + 4)) 9 :: queue_2_2_5_8) ∧
      (∀ (start n : Int) (cur : Tid),
        init_sleeping_thread (wrap64 (1 + 4)) 9 = init_sleeping_thread (wrap64 (start + n)) cur →
        timer_sleep intr_level.INTR_ON start cur n queue_2_2_5_8 =
          some (a ++ init_sleeping_thread (wrap64 (1 + 4)) 9 :: b))) :=
  ⟨by decide, by decide, by decide,
   timer_sleep_insert_sorted_stable (init_sleeping_thread (wrap64 (1 + 4)) 9) queue_2_2_5_8
     rfl (by decide) (by decide)⟩

/-- C17 fails on the queue `queue_100` at tick `10`.  The worker pops the entry
of thread `1`, due at `100`; while it holds the entry, thread `2` calls
`timer_sleep (10)` at tick `10` and its entry, due at `20`, goes into the empty
list; the worker finds its entry not due and pushes it to the front.  The
queue is then `queue_100_20`: not ascending, with the entry due at `20` behind
the one due at `100`, so that the pass at tick `20` unblocks nobody and thread
`2` is reached only by the pass at tick `100`.  Without arrivals the same
iteration leaves `queue_100` as it was. -/
theorem push_back_breaks_order :
    queue_100.Pairwise (fun a b => a.wake_up_time ≤ b.wake_up_time) ∧
    timer_sleep intr_level.INTR_ON 10 2 10 [] = some [⟨2, 20, SLEEPING_THREAD_MAGIC⟩] ∧
    drain_iteration 10 [⟨2, 10, 10⟩] queue_100 =
      { unblocked := [], queue := queue_100_20, panicked := false } ∧
    ¬ queue_100_20.Pairwise (fun a b => a.wake_up_time ≤ b.wake_up_time) ∧
    ¬ (∀ x ∈ queue_100_20, (queue_100_20.head?.map sleeping_thread.wake_up_time).getD 0 ≤
        x.wake_up_time) ∧
    (drain (fun _ => 20) 0 queue_100_20).unblocked = [] ∧
    (drain (fun _ => 99) 0 queue_100_20).unblocked = [] ∧
    (drain (fun _ => 100) 0 queue_100_20).unblocked.map (fun x => x.1.thread) = [1, 2] ∧
    drain_iteration 10 [] queue_100 =
      { unblocked := [], queue := queue_100, panicked := false } := by
  refine ⟨by decide, by decide, by decide, by decide, by decide, by decide, by decide,
    by decide, by decide⟩

end Timer

namespace Timer

/-- C division agrees with the floor quotient on a non-negative dividend and a
positive divisor, and stays within `int64_t`. -/
theorem div64_of_nonneg (x d : Int) (hx : 0 ≤ x) (hd : 0 < d) (h : InInt64 x) :
    div64 x d = x / d := by
  unfold div64
  rw [wrap64_of_inInt64 _ (tdiv_inInt64 x d hd h)]
  exact Int.tdiv_eq_ediv hx (le_of_lt hd)

/-- The two-step quotient of `real_time_delay` is at most the one-step floor
quotient, and short of it by at most `F`. -/
theorem two_step_quotient_bounds (a F d : Int) (ha : 0 ≤ a) (hF : 0 < F) (hd : 0 < d) :
    a / 1000 * F / d ≤ a * F / (1000 * d) ∧ a * F / (1000 * d) ≤ a / 1000 * F / d + F := by
  have h1 : a / 1000 * 1000 ≤ a := Int.ediv_mul_le a (by norm_num)
  have h2 : a < (a / 1000 + 1) * 1000 := Int.lt_ediv_add_one_mul_self a (by norm_num)
  have h3 : a / 1000 * F / d * d ≤ a / 1000 * F := Int.ediv_mul_le _ (ne_of_gt hd)
  have h4 : a / 1000 * F < (a / 1000 * F / d + 1) * d := Int.lt_ediv_add_one_mul_self _ hd
  have hq : 0 ≤ a / 1000 := Int.ediv_nonneg ha (by norm_num)
  have hr : 0 ≤ a / 1000 * F / d := Int.ediv_nonneg (mul_nonneg hq (le_of_lt hF)) (le_of_lt hd)
  have hpos : 0 < 1000 * d := by positivity
  have p1 : a / 1000 * 1000 * F ≤ a * F := mul_le_mul_of_nonneg_right h1 (le_of_lt hF)
  have p2 : a * F < (a / 1000 + 1) * 1000 * F := mul_lt_mul_of_pos_right h2 hF
  constructor
  · apply Int.le_ediv_of_mul_le hpos
    nlinarith
  · have : a * F / (1000 * d) < a / 1000 * F / d + F + 1 := by
      apply Int.ediv_lt_of_lt_mul hpos
      have hdF : F ≤ d * F := by nlinarith
      nlinarith
    omega

/-- C18, as stated, fails.  With `loops_per_tick = 1024`, `TIMER_FREQ = 100`
and no overflow, `timer_mdelay (1)` asks `busy_wait` for `100` iterations,
while `floor (1024 * 100 * 1 / 1000)` is `102`. -/
theorem busy_wait_length_counterexample :
    InInt64 (((1024 : Nat) : Int) * 1) ∧ InInt64 (((1024 : Nat) : Int) * 1 / 1000 * 100) ∧
    timer_mdelay 100 1024 ⟨0, []⟩ 1 = some (⟨0, []⟩, 100) ∧
    ⌊((((1024 : Nat) : Int) * 100 * 1 : Int) : ℚ) / ((1000 : Int) : ℚ)⌋ = 102 ∧
    ¬ ((102 : Int) ≤ 100) := by
  refine ⟨by decide, by decide, by decide, ?_, by decide⟩
  rw [floor_rat_div _ _ (by norm_num)]
  decide

/-- C18, amended.  For `num >= 0`, `denom` one of `1000`, `10^6`, `10^9`,
`TIMER_FREQ > 0` and no overflow, `real_time_delay` fails no `ASSERT`, leaves
`ticks` and the sleep queue as they are, and asks `busy_wait` for
`loops_per_tick * num / 1000 * TIMER_FREQ / (denom / 1000)` iterations, which
is at most `floor (loops_per_tick * TIMER_FREQ * num / denom)` and short of it
by at most `TIMER_FREQ`. -/
theorem real_time_delay_length (TIMER_FREQ : Int) (loops_per_tick : Nat) (s : TimerState)
    (num denom : Int) (hF : 0 < TIMER_FREQ) (hn : 0 ≤ num)
    (hd : denom = 1000 ∨ denom = 1000 * 1000 ∨ denom = 1000 * 1000 * 1000)
    (ho1 : InInt64 ((loops_per_tick : Int) * num))
    (ho2 : InInt64 ((loops_per_tick : Int) * num / 1000 * TIMER_FREQ)) :
    real_time_delay TIMER_FREQ loops_per_tick s num denom =
      some (s, (loops_per_tick : Int) * num / 1000 * TIMER_FREQ / (denom / 1000)) ∧
    busy_wait ((loops_per_tick : Int) * num / 1000 * TIMER_FREQ / (denom / 1000)) =
      ((loops_per_tick : Int) * num / 1000 * TIMER_FREQ / (denom / 1000)).toNat ∧
    0 ≤ (loops_per_tick : Int) * num / 1000 * TIMER_FREQ / (denom / 1000) ∧
    (loops_per_tick : Int) * num / 1000 * TIMER_FREQ / (denom / 1000) ≤
      ⌊(((loops_per_tick : Int) * TIMER_FREQ * num : Int) : ℚ) / (denom : ℚ)⌋ ∧
    ⌊(((loops_per_tick : Int) * TIMER_FREQ * num : Int) : ℚ) / (denom : ℚ)⌋ ≤
      (loops_per_tick : Int) * num / 1000 * TIMER_FREQ / (denom / 1000) + TIMER_FREQ := by
  have hL : (0 : Int) ≤ (loops_per_tick : Int) := Int.natCast_nonneg _
  have ha : 0 ≤ (loops_per_tick : Int) * num := mul_nonneg hL hn
  have hq : 0 ≤ (loops_per_tick : Int) * num / 1000 := Int.ediv_nonneg ha (by norm_num)
  have hqF : 0 ≤ (loops_per_tick : Int) * num / 1000 * TIMER_FREQ :=
    mul_nonneg hq (le_of_lt hF)
  have hdpos : 0 < denom := by rcases hd with h | h | h <;> rw [h] <;> norm_num
  have hd1 : 0 < denom / 1000 := by rcases hd with h | h | h <;> rw [h] <;> decide
  have hmod : Int.tmod denom 1000 = 0 := by rcases hd with h | h | h <;> rw [h] <;> decide
  have htd : Int.tdiv denom 1000 = denom / 1000 :=
    Int.tdiv_eq_ediv (le_of_lt hdpos) (by norm_num)
  have hden : denom = 1000 * (denom / 1000) := by
    rcases hd with h | h | h <;> rw [h] <;> decide
  have e1 : div64 (wrap64 ((loops_per_tick : Int) * num)) 1000 =
      (loops_per_tick : Int) * num / 1000 := by
    rw [wrap64_of_inInt64 _ ho1]
    exact div64_of_nonneg _ _ ha (by norm_num) ho1
  have e2 : div64 (wrap64 ((loops_per_tick : Int) * num / 1000 * TIMER_FREQ)) (denom / 1000) =
      (loops_per_tick : Int) * num / 1000 * TIMER_FREQ / (denom / 1000) := by
    rw [wrap64_of_inInt64 _ ho2]
    exact div64_of_nonneg _ _ hqF hd1 ho2
  have hb := two_step_quotient_bounds ((loops_per_tick : Int) * num) TIMER_FREQ (denom / 1000)
    ha hF hd1
  rw [← hden] at hb
  have hfl : ⌊(((loops_per_tick : Int) * TIMER_FREQ * num : Int) : ℚ) / (denom : ℚ)⌋ =
      (loops_per_tick : Int) * num * TIMER_FREQ / denom := by
    rw [floor_rat_div _ _ hdpos]
    congr 1
    ring
  refine ⟨?_, rfl, Int.ediv_nonneg hqF (le_of_lt hd1), ?_, ?_⟩
  · simp only [real_time_delay, hmod, if_true, htd, e1, e2]
  · rw [hfl]; exact hb.1
  · rw [hfl]; exact hb.2

/-- C18 amended, at `timer_mdelay (1)` with `loops_per_tick = 1024` and
`TIMER_FREQ = 100`: `100` iterations are asked for, the floor is `102`. -/
theorem real_time_delay_length_witness :
    (0 : Int) < 100 ∧ (0 : Int) ≤ 1 ∧
    InInt64 (((1024 : Nat) : Int) * 1) ∧ InInt64 (((1024 : Nat) : Int) * 1 / 1000 * 100) ∧
    real_time_delay 100 1024 ⟨0, []⟩ 1 1000 =
      some (⟨0, []⟩, ((1024 : Nat) : Int) * 1 / 1000 * 100 / (1000 / 1000)) ∧
    ((1024 : Nat) : Int) * 1 / 1000 * 100 / (1000 / 1000) = 100 ∧
    ((1024 : Nat) : Int) * 1 / 1000 * 100 / (1000 / 1000) ≤
      ⌊((((1024 : Nat) : Int) * 100 * 1 : Int) : ℚ) / ((1000 : Int) : ℚ)⌋ :=
  ⟨by decide, by decide, by decide, by decide,
   (real_time_delay_length 100 1024 ⟨0, []⟩ 1 1000 (by decide) (by decide) (Or.inl rfl)
      (by decide) (by decide)).1,
   by decide,
   (real_time_delay_length 100 1024 ⟨0, []⟩ 1 1000 (by decide) (by decide) (Or.inl rfl)
      (by decide) (by decide)).2.2.2.1⟩

end Timer
